import Mathlib

/-!
# Verification of the GAMBIT k-mer signature core

This file embeds the k-mer signature core of the `gambit` package in Lean 4
and proves properties of it.

Modules embedded from their sources: `gambit/signatures/array.py`
(signature storage) and `gambit/cli/common.py` (`kspec_from_params`).

The k-mer module `gambit/kmers.py` (KmerSpec, index codec, sequence scanner,
sparse/dense converter, KmerSpec converter) and the calculation pipeline
`gambit/signatures/calc.py` are not part of the repository snapshot (only
their tests are); those definitions are modelled from the spec, and each
carries a doc comment saying so.

Conventions: nucleotide sequences are lists of byte values (`List Nat`,
ASCII codes, as the scanner works on `bytes`); the Lean keyword `prefix`
cannot be used as a name, so the KmerSpec field is called `prefx` (with
`prefx_len` for `prefix_len`).
-/

set_option maxHeartbeats 1600000

namespace Gambit

/-- Modelled from the spec (§3, missing `gambit/kmers.py`): the four
nucleotides in their fixed order A < C < G < T. -/
inductive Base : Type
  | A
  | C
  | G
  | T
deriving DecidableEq, Repr

/-- Modelled from the spec (§4.1): the 2-bit code of each nucleotide
(A=0, C=1, G=2, T=3). -/
def baseVal : Base → Nat
  | .A => 0
  | .C => 1
  | .G => 2
  | .T => 3

/-- Modelled from the spec (§4.1): the nucleotide of a 2-bit code. -/
def valBase : Nat → Base
  | 0 => .A
  | 1 => .C
  | 2 => .G
  | _ => .T

/-- Modelled from the spec (glossary): Watson-Crick complement of a base. -/
def bcompl : Base → Base
  | .A => .T
  | .T => .A
  | .C => .G
  | .G => .C

/-- The canonical (upper-case) ASCII code of a base. -/
def baseChar : Base → Nat
  | .A => 65
  | .C => 67
  | .G => 71
  | .T => 84

/-- Modelled from the spec (§4.2, §6): classify a byte as a nucleotide,
case-insensitively; any other byte is an ambiguity symbol (`none`). -/
def baseOf (c : Nat) : Option Base :=
  if c = 65 ∨ c = 97 then some .A
  else if c = 67 ∨ c = 99 then some .C
  else if c = 71 ∨ c = 103 then some .G
  else if c = 84 ∨ c = 116 then some .T
  else none

/-- ASCII lower-casing of a byte, as Python `bytes.lower` does it. -/
def lowerByte (c : Nat) : Nat :=
  if 65 ≤ c ∧ c ≤ 90 then c + 32 else c

/-- ASCII upper-casing of a byte, as Python `bytes.upper` does it. -/
def upperByte (c : Nat) : Nat :=
  if 97 ≤ c ∧ c ≤ 122 then c - 32 else c

/-- Modelled from the spec and `test_kmers.py` (`NUC_COMPLEMENTS`):
complement of one byte, preserving case; non-nucleotide bytes unchanged. -/
def complByte (c : Nat) : Nat :=
  match baseOf c with
  | some b => if 97 ≤ c then baseChar (bcompl b) + 32 else baseChar (bcompl b)
  | none => c

/-- Modelled from the spec (glossary): reverse complement of a byte
sequence (`gambit._cython.kmers.reverse_complement`). -/
def rcSeq (s : List Nat) : List Nat :=
  (s.map complByte).reverse

/-- Reverse complement on decoded bases. -/
def rcBases (l : List Base) : List Base :=
  (l.map bcompl).reverse

/-- Decode a byte string to bases; `none` if any byte is not a valid
nucleotide (in either case). -/
def decodeSeq : List Nat → Option (List Base)
  | [] => some []
  | c :: rest =>
    match baseOf c, decodeSeq rest with
    | some b, some bs => some (b :: bs)
    | _, _ => none

/-- Modelled from the spec (§4.1): pack bases into an index,
most-significant-first (base-4 positional number). -/
def kmerIndex (l : List Base) : Nat :=
  l.foldl (fun a b => 4 * a + baseVal b) 0

/-- Modelled from the spec (§4.1): unpack an index into its `k` bases,
most-significant-first. -/
def decodeKmer : Nat → Nat → List Base
  | 0, _ => []
  | k + 1, idx => decodeKmer k (idx / 4) ++ [valBase (idx % 4)]

/-- Modelled from the spec (§4.1): `kmer_to_index`; fails (`none`) when any
byte is not one of the four nucleotides. -/
def kmer_to_index (s : List Nat) : Option Nat :=
  (decodeSeq s).map kmerIndex

/-- Modelled from the spec (§4.1): `index_to_kmer`, returning the canonical
upper-case byte string of length `k`. -/
def index_to_kmer (idx k : Nat) : List Nat :=
  (decodeKmer k idx).map baseChar

/-- Modelled from the spec (§3): `nkmers(k) = 4^k`. -/
def nkmers (k : Nat) : Nat := 4 ^ k

/-- Modelled from the spec (§3, missing `gambit/kmers.py`): the `KmerSpec`
parameter object. The prefix is stored canonicalized (decoded to bases); the
field is named `prefx` because `prefix` is a Lean keyword. -/
structure KmerSpec where
  k : Nat
  prefx : List Base
deriving DecidableEq, Repr

/-- `prefix_len` of a KmerSpec. -/
def KmerSpec.prefx_len (sp : KmerSpec) : Nat := sp.prefx.length

/-- `total_len = prefix_len + k`. -/
def KmerSpec.total_len (sp : KmerSpec) : Nat := sp.prefx_len + sp.k

/-- `nkmers = 4^k` of a KmerSpec. -/
def KmerSpec.nkmers (sp : KmerSpec) : Nat := Gambit.nkmers sp.k

/-- The length-`m` window of `s` starting at position `p` (`s[p:p+m]`). -/
def window (s : List Nat) (p m : Nat) : List Nat :=
  (s.drop p).take m

/-- Modelled from the spec (§4.2): the forward-strand hit at position `p`:
if the prefix matches (case-insensitively) at `p` and the following `k`
bytes are in bounds and all valid nucleotides, the index of that k-mer. -/
def fwdKmerAt (sp : KmerSpec) (s : List Nat) (p : Nat) : Option Nat :=
  if (window s p sp.prefx_len).map baseOf = sp.prefx.map some then
    match decodeSeq (window s (p + sp.prefx_len) sp.k) with
    | some bs => if bs.length = sp.k then some (kmerIndex bs) else none
    | none => none
  else none

/-- Modelled from the spec (§4.2): the reverse-strand hit at position `q`:
if the reverse complement of the prefix matches at `q` and the `k` bytes
immediately preceding `q` are in bounds and all valid, the index of the
reverse complement of those `k` bytes. -/
def revKmerAt (sp : KmerSpec) (s : List Nat) (q : Nat) : Option Nat :=
  if sp.k ≤ q ∧ (window s q sp.prefx_len).map baseOf = (rcBases sp.prefx).map some then
    match decodeSeq (window s (q - sp.k) sp.k) with
    | some bs => if bs.length = sp.k then some (kmerIndex (rcBases bs)) else none
    | none => none
  else none

/-- Insert `x` into a strictly ascending list, keeping it ascending and
duplicate-free. -/
def insertUnique (x : Nat) : List Nat → List Nat
  | [] => [x]
  | y :: t => if x = y then y :: t else if x < y then x :: y :: t else y :: insertUnique x t

/-- The strictly ascending list of the distinct elements of `l`. -/
def sortedUnique (l : List Nat) : List Nat :=
  l.foldr insertUnique []

/-- Modelled from the spec (§4.2): every hit found by scanning, forward
strand then reverse strand, duplicates included. -/
def findKmerList (sp : KmerSpec) (s : List Nat) : List Nat :=
  (List.range (s.length + 1)).filterMap (fwdKmerAt sp s) ++
    (List.range (s.length + 1)).filterMap (revKmerAt sp s)

/-- Modelled from the spec (§4.2): `find_kmers` in sparse form — the found
indices, deduplicated and sorted ascending. -/
def find_kmers (sp : KmerSpec) (s : List Nat) : List Nat :=
  sortedUnique (findKmerList sp s)

/-- Modelled from the spec (§4.2): `find_kmers` in dense form — the boolean
presence vector of length `nkmers`. -/
def find_dense (sp : KmerSpec) (s : List Nat) : List Bool :=
  (List.range sp.nkmers).map fun i => decide (i ∈ findKmerList sp s)

/-! ### Byte-level lemmas -/

lemma baseOf_eq_some_cases {c : Nat} {b : Base} (h : baseOf c = some b) :
    c = 65 ∨ c = 97 ∨ c = 67 ∨ c = 99 ∨ c = 71 ∨ c = 103 ∨ c = 84 ∨ c = 116 := by
  unfold baseOf at h
  split_ifs at h with h1 h2 h3 h4 <;> tauto

lemma baseOf_lowerByte (c : Nat) : baseOf (lowerByte c) = baseOf c := by
  unfold lowerByte
  split_ifs with h
  · obtain ⟨h1, h2⟩ := h
    interval_cases c <;> rfl
  · rfl

lemma baseOf_complByte (c : Nat) : baseOf (complByte c) = (baseOf c).map bcompl := by
  rcases h : baseOf c with _ | b
  · simp [complByte, h]
  · rcases baseOf_eq_some_cases h with rfl | rfl | rfl | rfl | rfl | rfl | rfl | rfl <;>
      (injection h with h; subst h; decide)

lemma complByte_complByte (c : Nat) : complByte (complByte c) = c := by
  rcases h : baseOf c with _ | b
  · have h1 : complByte c = c := by
      unfold complByte
      rw [h]
    rw [h1, h1]
  · rcases baseOf_eq_some_cases h with rfl | rfl | rfl | rfl | rfl | rfl | rfl | rfl <;> decide

lemma bcompl_bcompl (b : Base) : bcompl (bcompl b) = b := by cases b <;> rfl

lemma bcompl_injective : Function.Injective bcompl := by
  intro a b h
  have := congrArg bcompl h
  rwa [bcompl_bcompl, bcompl_bcompl] at this

lemma valBase_baseVal (b : Base) : valBase (baseVal b) = b := by cases b <;> rfl

lemma baseVal_lt (b : Base) : baseVal b < 4 := by cases b <;> decide

lemma baseChar_eq_upperByte {c : Nat} {b : Base} (h : baseOf c = some b) :
    baseChar b = upperByte c := by
  rcases baseOf_eq_some_cases h with rfl | rfl | rfl | rfl | rfl | rfl | rfl | rfl <;>
    (injection h with h; subst h; decide)

/-! ### Decoding byte strings -/

lemma decodeSeq_eq_some {l : List Nat} {bs : List Base} :
    decodeSeq l = some bs ↔ l.map baseOf = bs.map some := by
  induction l generalizing bs with
  | nil =>
    cases bs <;> simp [decodeSeq]
  | cons c t ih =>
    cases bs with
    | nil =>
      rcases hb : baseOf c with _ | b <;> rcases hd : decodeSeq t with _ | ds <;>
        simp [decodeSeq, hb, hd]
    | cons b ds =>
      rcases hb : baseOf c with _ | b' <;> rcases hd : decodeSeq t with _ | ds' <;>
        simp [decodeSeq, hb, hd, ← ih]

lemma map_some_length {α : Type} {l : List Nat} {bs : List α} (f : Nat → Option α)
    (h : l.map f = bs.map some) : bs.length = l.length := by
  have := congrArg List.length h
  simpa using this.symm

lemma decodeSeq_length {l : List Nat} {bs : List Base} (h : decodeSeq l = some bs) :
    bs.length = l.length :=
  map_some_length baseOf (decodeSeq_eq_some.mp h)

lemma decodeSeq_of_all_valid {l : List Nat} (h : ∀ c ∈ l, (baseOf c).isSome) :
    ∃ bs, decodeSeq l = some bs := by
  induction l with
  | nil => exact ⟨[], rfl⟩
  | cons c t ih =>
    obtain ⟨bs, hbs⟩ := ih fun c hc => h c (List.mem_cons_of_mem _ hc)
    rcases hb : baseOf c with _ | b
    · have := h c (List.mem_cons_self c t)
      rw [hb] at this
      exact absurd this (by simp)
    · exact ⟨b :: bs, by simp [decodeSeq, hb, hbs]⟩

/-! ### The index codec -/

lemma kmerIndex_append (l : List Base) (b : Base) :
    kmerIndex (l ++ [b]) = 4 * kmerIndex l + baseVal b := by
  simp [kmerIndex, List.foldl_append]

lemma kmerIndex_lt (l : List Base) : kmerIndex l < 4 ^ l.length := by
  induction l using List.reverseRecOn with
  | nil => simp [kmerIndex]
  | append_singleton t b ih =>
    rw [kmerIndex_append]
    have hb := baseVal_lt b
    simp only [List.length_append, List.length_singleton, pow_succ]
    omega

lemma decodeKmer_kmerIndex (l : List Base) :
    decodeKmer l.length (kmerIndex l) = l := by
  induction l using List.reverseRecOn with
  | nil => rfl
  | append_singleton t b ih =>
    rw [kmerIndex_append]
    have hlen : (t ++ [b]).length = t.length + 1 := by simp
    rw [hlen, decodeKmer]
    have hb := baseVal_lt b
    have hdiv : (4 * kmerIndex t + baseVal b) / 4 = kmerIndex t := by omega
    have hmod : (4 * kmerIndex t + baseVal b) % 4 = baseVal b := by omega
    rw [hdiv, hmod, ih, valBase_baseVal]

/-! ### Reverse complement on bases -/

lemma rcBases_length (l : List Base) : (rcBases l).length = l.length := by
  simp [rcBases]

lemma rcBases_rcBases (l : List Base) : rcBases (rcBases l) = l := by
  simp only [rcBases, List.map_reverse, List.reverse_reverse, List.map_map]
  rw [show bcompl ∘ bcompl = id from funext bcompl_bcompl, List.map_id]

lemma rcBases_append (l₁ l₂ : List Base) :
    rcBases (l₁ ++ l₂) = rcBases l₂ ++ rcBases l₁ := by
  simp [rcBases]

lemma rcSeq_length (s : List Nat) : (rcSeq s).length = s.length := by
  simp [rcSeq]

lemma rcSeq_rcSeq (s : List Nat) : rcSeq (rcSeq s) = s := by
  simp only [rcSeq, List.map_reverse, List.reverse_reverse, List.map_map]
  rw [show complByte ∘ complByte = id from funext complByte_complByte, List.map_id]

/-! ### Sorted deduplicated lists -/

lemma mem_insertUnique {a x : Nat} {l : List Nat} :
    a ∈ insertUnique x l ↔ a = x ∨ a ∈ l := by
  induction l with
  | nil => simp [insertUnique]
  | cons y t ih =>
    unfold insertUnique
    split_ifs with h1 h2
    · subst h1
      simp only [List.mem_cons]
      tauto
    · simp only [List.mem_cons]
    · simp only [List.mem_cons, ih]
      tauto

lemma sorted_insertUnique {x : Nat} {l : List Nat} (h : l.Sorted (· < ·)) :
    (insertUnique x l).Sorted (· < ·) := by
  induction l with
  | nil => simp [insertUnique]
  | cons y t ih =>
    rw [List.sorted_cons] at h
    obtain ⟨hy, ht⟩ := h
    unfold insertUnique
    split_ifs with h1 h2
    · exact List.sorted_cons.mpr ⟨hy, ht⟩
    · refine List.sorted_cons.mpr ⟨?_, List.sorted_cons.mpr ⟨hy, ht⟩⟩
      intro b hb
      rcases List.mem_cons.mp hb with rfl | hb
      · exact h2
      · exact h2.trans (hy b hb)
    · refine List.sorted_cons.mpr ⟨?_, ih ht⟩
      intro b hb
      rcases mem_insertUnique.mp hb with rfl | hb
      · omega
      · exact hy b hb

lemma mem_sortedUnique {a : Nat} {l : List Nat} :
    a ∈ sortedUnique l ↔ a ∈ l := by
  induction l with
  | nil => simp [sortedUnique]
  | cons x t ih =>
    unfold sortedUnique at *
    simp [List.foldr_cons, mem_insertUnique, ih]

lemma sorted_sortedUnique (l : List Nat) : (sortedUnique l).Sorted (· < ·) := by
  induction l with
  | nil => simp [sortedUnique]
  | cons x t ih => exact sorted_insertUnique ih

lemma sorted_lt_eq_of_mem_iff {l₁ l₂ : List Nat} (h₁ : l₁.Sorted (· < ·))
    (h₂ : l₂.Sorted (· < ·)) (h : ∀ a, a ∈ l₁ ↔ a ∈ l₂) : l₁ = l₂ := by
  have nd₁ : l₁.Nodup := h₁.nodup
  have nd₂ : l₂.Nodup := h₂.nodup
  have hperm : List.Perm l₁ l₂ := by
    refine List.perm_of_nodup_nodup_toFinset_eq nd₁ nd₂ ?_
    ext a
    simp [List.mem_toFinset, h a]
  exact List.eq_of_perm_of_sorted hperm h₁ h₂

lemma sortedUnique_eq_sortedUnique {l₁ l₂ : List Nat}
    (h : ∀ a, a ∈ l₁ ↔ a ∈ l₂) : sortedUnique l₁ = sortedUnique l₂ :=
  sorted_lt_eq_of_mem_iff (sorted_sortedUnique l₁) (sorted_sortedUnique l₂)
    (fun a => by rw [mem_sortedUnique, mem_sortedUnique]; exact h a)

/-! ### Window lemmas -/

lemma window_length (s : List Nat) (p m : Nat) :
    (window s p m).length = min m (s.length - p) := by
  simp [window]

lemma window_add (s : List Nat) (p m₁ m₂ : Nat) :
    window s p (m₁ + m₂) = window s p m₁ ++ window s (p + m₁) m₂ := by
  simp only [window, List.take_add, List.drop_drop]

lemma window_take (s : List Nat) (p m j : Nat) (h : j ≤ m) :
    (window s p m).take j = window s p j := by
  simp only [window, List.take_take]
  rw [Nat.min_eq_left h]

lemma window_drop (s : List Nat) (p m j : Nat) :
    (window s p m).drop j = window s (p + j) (m - j) := by
  simp only [window, List.drop_take, List.drop_drop]

lemma window_rcSeq {s : List Nat} {p m : Nat} (h : p + m ≤ s.length) :
    window (rcSeq s) p m = rcSeq (window s (s.length - p - m) m) := by
  have hn : (s.map complByte).length = s.length := by simp
  unfold window rcSeq
  rw [List.drop_reverse, hn, List.take_reverse, List.length_take, hn,
    Nat.min_eq_left (Nat.sub_le _ _), List.drop_take, List.map_take, List.map_drop]
  congr 2
  omega

/-! ### Scanner membership and strand symmetry -/

lemma mem_findKmerList {sp : KmerSpec} {s : List Nat} {i : Nat} :
    i ∈ findKmerList sp s ↔
      (∃ p, p ≤ s.length ∧ fwdKmerAt sp s p = some i) ∨
      (∃ q, q ≤ s.length ∧ revKmerAt sp s q = some i) := by
  simp [findKmerList, Nat.lt_succ_iff]

lemma window_bound {s : List Nat} {p m : Nat} {bs : List Base}
    (h : (window s p m).map baseOf = bs.map some) (hm : bs.length = m)
    (hp : p ≤ s.length) : p + m ≤ s.length := by
  have hlen := map_some_length baseOf h
  rw [window_length, Nat.min_def] at hlen
  split_ifs at hlen <;> omega

lemma map_involutive_eq_iff {α : Type} {g : α → α} (hg : ∀ a, g (g a) = a)
    {l v : List α} : l.map g = v ↔ l = v.map g := by
  constructor
  · rintro rfl
    rw [List.map_map, show g ∘ g = id from funext hg, List.map_id]
  · rintro rfl
    rw [List.map_map, show g ∘ g = id from funext hg, List.map_id]

lemma rc_window_decode {w : List Nat} {bs : List Base} :
    (rcSeq w).map baseOf = bs.map some ↔ w.map baseOf = (rcBases bs).map some := by
  have hG : (rcSeq w).map baseOf = ((w.map baseOf).map (Option.map bcompl)).reverse := by
    simp only [rcSeq, List.map_reverse, List.map_map]
    congr 1
    exact List.map_congr_left fun c _ => baseOf_complByte c
  have hg : ∀ o : Option Base, Option.map bcompl (Option.map bcompl o) = o := by
    intro o
    cases o <;> simp [bcompl_bcompl]
  have hRB : ((bs.map some).reverse).map (Option.map bcompl) = (rcBases bs).map some := by
    simp only [rcBases, List.map_reverse, List.map_map]
    congr 1
  rw [hG, List.reverse_eq_iff, map_involutive_eq_iff hg, hRB]

lemma decodeSeq_rcSeq {w : List Nat} {bs : List Base} :
    decodeSeq (rcSeq w) = some bs ↔ decodeSeq w = some (rcBases bs) := by
  rw [decodeSeq_eq_some, decodeSeq_eq_some, rc_window_decode]

lemma fwdKmerAt_rcSeq_some {sp : KmerSpec} {s : List Nat} {p i : Nat}
    (hp : p ≤ s.length) (h : fwdKmerAt sp (rcSeq s) p = some i) :
    revKmerAt sp s (s.length - p - sp.prefx_len) = some i := by
  rw [fwdKmerAt] at h
  split_ifs at h with hpre
  rcases hdec : decodeSeq (window (rcSeq s) (p + sp.prefx_len) sp.k) with _ | bs <;>
    rw [hdec] at h
  · exact Option.noConfusion h
  · have h' : (if bs.length = sp.k then some (kmerIndex bs) else none) = some i := h
    split_ifs at h' with hlen
    injection h' with h'
    subst h'
    have hplen : p + sp.prefx_len ≤ s.length := by
      have := window_bound hpre rfl (by rwa [rcSeq_length])
      rwa [rcSeq_length] at this
    have hbody : p + sp.prefx_len + sp.k ≤ s.length := by
      have := window_bound (decodeSeq_eq_some.mp hdec) hlen (by rw [rcSeq_length]; omega)
      rwa [rcSeq_length] at this
    have hwpre : window (rcSeq s) p sp.prefx_len =
        rcSeq (window s (s.length - p - sp.prefx_len) sp.prefx_len) :=
      window_rcSeq hplen
    have hwbody : window (rcSeq s) (p + sp.prefx_len) sp.k =
        rcSeq (window s (s.length - p - sp.prefx_len - sp.k) sp.k) := by
      rw [window_rcSeq (by omega)]
      congr 2
      omega
    rw [hwpre, rc_window_decode] at hpre
    rw [hwbody, decodeSeq_rcSeq] at hdec
    rw [revKmerAt, if_pos ⟨by omega, hpre⟩, hdec]
    show (if (rcBases bs).length = sp.k then some (kmerIndex (rcBases (rcBases bs))) else none) =
      some (kmerIndex bs)
    rw [if_pos (by rw [rcBases_length]; exact hlen), rcBases_rcBases]

lemma revKmerAt_to_fwd_rc {sp : KmerSpec} {s : List Nat} {q i : Nat}
    (hq : q ≤ s.length) (h : revKmerAt sp s q = some i) :
    fwdKmerAt sp (rcSeq s) (s.length - q - sp.prefx_len) = some i := by
  rw [revKmerAt] at h
  split_ifs at h with hcond
  obtain ⟨hkq, hpre⟩ := hcond
  rcases hdec : decodeSeq (window s (q - sp.k) sp.k) with _ | bs <;> rw [hdec] at h
  · exact Option.noConfusion h
  · have h' : (if bs.length = sp.k then some (kmerIndex (rcBases bs)) else none) = some i := h
    split_ifs at h' with hlen
    injection h' with h'
    subst h'
    have hqlen : q + sp.prefx_len ≤ s.length :=
      window_bound hpre (by rw [rcBases_length]; rfl) hq
    have hwpre : window (rcSeq s) (s.length - q - sp.prefx_len) sp.prefx_len =
        rcSeq (window s q sp.prefx_len) := by
      rw [window_rcSeq (by omega)]
      congr 2
      omega
    have hwbody : window (rcSeq s) (s.length - q - sp.prefx_len + sp.prefx_len) sp.k =
        rcSeq (window s (q - sp.k) sp.k) := by
      rw [window_rcSeq (by omega)]
      congr 2
      omega
    have hdec' : decodeSeq (rcSeq (window s (q - sp.k) sp.k)) = some (rcBases bs) := by
      rw [decodeSeq_rcSeq, rcBases_rcBases]
      exact hdec
    rw [fwdKmerAt, if_pos (by rw [hwpre, rc_window_decode]; exact hpre), hwbody, hdec']
    show (if (rcBases bs).length = sp.k then some (kmerIndex (rcBases bs)) else none) =
      some (kmerIndex (rcBases bs))
    rw [if_pos (by rw [rcBases_length]; exact hlen)]

lemma mem_findKmerList_rcSeq {sp : KmerSpec} {s : List Nat} {i : Nat} :
    i ∈ findKmerList sp (rcSeq s) ↔ i ∈ findKmerList sp s := by
  rw [mem_findKmerList, mem_findKmerList, rcSeq_length]
  constructor
  · rintro (⟨p, hp, h⟩ | ⟨q, hq, h⟩)
    · exact Or.inr ⟨s.length - p - sp.prefx_len, by omega, fwdKmerAt_rcSeq_some hp h⟩
    · refine Or.inl ⟨s.length - q - sp.prefx_len, by omega, ?_⟩
      have h' : revKmerAt sp (rcSeq s) q = some i := h
      have := revKmerAt_to_fwd_rc (s := rcSeq s) (by rwa [rcSeq_length]) h'
      rwa [rcSeq_rcSeq, rcSeq_length] at this
  · rintro (⟨p, hp, h⟩ | ⟨q, hq, h⟩)
    · refine Or.inr ⟨s.length - p - sp.prefx_len, by omega, ?_⟩
      have h' : fwdKmerAt sp (rcSeq (rcSeq s)) p = some i := by rwa [rcSeq_rcSeq]
      have := fwdKmerAt_rcSeq_some (s := rcSeq s) (by rwa [rcSeq_length]) h'
      rwa [rcSeq_length] at this
    · exact Or.inl ⟨s.length - q - sp.prefx_len, by omega, revKmerAt_to_fwd_rc hq h⟩

/-! ### Scanning only depends on the nucleotide classification of bytes -/

lemma decodeSeq_congr {w₁ w₂ : List Nat} (h : w₁.map baseOf = w₂.map baseOf) :
    decodeSeq w₁ = decodeSeq w₂ := by
  rcases d1 : decodeSeq w₁ with _ | bs <;> rcases d2 : decodeSeq w₂ with _ | bs'
  · rfl
  · rw [decodeSeq_eq_some] at d2
    rw [← h] at d2
    rw [← decodeSeq_eq_some] at d2
    rw [d1] at d2
    exact d2
  · rw [decodeSeq_eq_some] at d1
    rw [h] at d1
    rw [← decodeSeq_eq_some] at d1
    rw [d2] at d1
    exact d1.symm
  · rw [decodeSeq_eq_some] at d1 d2
    rw [h] at d1
    rw [d1] at d2
    have := List.map_injective_iff.mpr (fun a b hab => Option.some.inj hab) d2
    rw [this]

lemma window_map_baseOf_congr {s t : List Nat} (h : s.map baseOf = t.map baseOf)
    (p m : Nat) : (window s p m).map baseOf = (window t p m).map baseOf := by
  simp only [window, List.map_take, List.map_drop, h]

lemma findKmerList_congr {sp : KmerSpec} {s t : List Nat}
    (h : s.map baseOf = t.map baseOf) : findKmerList sp s = findKmerList sp t := by
  have hlen : s.length = t.length := by
    have := congrArg List.length h
    simpa using this
  have hfwd : ∀ p, fwdKmerAt sp s p = fwdKmerAt sp t p := by
    intro p
    rw [fwdKmerAt, fwdKmerAt, window_map_baseOf_congr h,
      decodeSeq_congr (window_map_baseOf_congr h (p + sp.prefx_len) sp.k)]
  have hrev : ∀ q, revKmerAt sp s q = revKmerAt sp t q := by
    intro q
    rw [revKmerAt, revKmerAt, window_map_baseOf_congr h,
      decodeSeq_congr (window_map_baseOf_congr h (q - sp.k) sp.k)]
  rw [findKmerList, findKmerList, hlen]
  rw [List.filterMap_congr fun p _ => hfwd p, List.filterMap_congr fun q _ => hrev q]

lemma map_baseOf_lowerByte (s : List Nat) :
    (s.map lowerByte).map baseOf = s.map baseOf := by
  rw [List.map_map]
  exact List.map_congr_left fun c _ => baseOf_lowerByte c

/-! ### Sparse/dense converter, KmerSpec converter, CLI, pipeline -/

/-- Modelled from the spec (§4.3): `dense_to_sparse` — ascending list of the
`true` positions of a boolean vector. -/
def dense_to_sparse (vec : List Bool) : List Nat :=
  (List.range vec.length).filter fun i => vec.getD i false

/-- Modelled from the spec (§4.3): `sparse_to_dense` — length-`nkmers`
boolean vector with the given positions set. -/
def sparse_to_dense (sp : KmerSpec) (idx : List Nat) : List Bool :=
  (List.range sp.nkmers).map fun i => decide (i ∈ idx)

/-- Boolean test that `a` is a leading segment of `b`. -/
def isPre : List Base → List Base → Bool
  | [], _ => true
  | _ :: _, [] => false
  | a :: as, b :: bs => decide (a = b) && isPre as bs

lemma isPre_iff {a b : List Base} : isPre a b = true ↔ ∃ r, b = a ++ r := by
  induction a generalizing b with
  | nil => simp [isPre]
  | cons x as ih =>
    cases b with
    | nil =>
      simp only [isPre]
      constructor
      · intro h
        exact absurd h (by simp)
      · rintro ⟨r, hr⟩
        exact absurd hr (by simp)
    | cons y bs =>
      simp only [isPre, Bool.and_eq_true, decide_eq_true_eq, ih]
      constructor
      · rintro ⟨rfl, r, rfl⟩
        exact ⟨r, rfl⟩
      · rintro ⟨r, hr⟩
        injection hr with h1 h2
        exact ⟨h1.symm, r, h2⟩

/-- Modelled from the spec (§4.4): `can_convert(S, T)` — true iff `T`'s
prefix extends `S`'s and `T`'s total window does not overrun `S`'s. It is a
total boolean function (never raises). -/
def can_convert (S T : KmerSpec) : Bool :=
  isPre S.prefx T.prefx && decide (T.prefx_len + T.k ≤ S.prefx_len + S.k)

/-- Modelled from the spec (§4.4, §7): `check_can_convert` — raises a
descriptive error naming the failed condition (divergent prefixes, shrinking
prefix, or window overrun) exactly when `can_convert` is false. -/
def check_can_convert (S T : KmerSpec) : Except String Unit :=
  if isPre S.prefx T.prefx then
    if T.prefx_len + T.k ≤ S.prefx_len + S.k then Except.ok ()
    else Except.error "target window overruns what the source captured"
  else if T.prefx.length < S.prefx.length then
    Except.error "target prefix is shorter than source prefix"
  else Except.error "prefixes diverge"

/-- Modelled from the spec (§4.4): convert one source index: decode the
`S.k`-wide index, keep it iff its leading `e` bases equal `T`'s prefix
extension, then drop those `e` leading bases and the trailing `d` bases. -/
def convertIndex (S T : KmerSpec) (idx : Nat) : Option Nat :=
  let bs := decodeKmer S.k idx
  let e := T.prefx_len - S.prefx_len
  if bs.take e = T.prefx.drop S.prefx_len then
    some (kmerIndex ((bs.drop e).take T.k))
  else none

/-- Modelled from the spec (§4.4): `convert_sparse` — convert every index of
a sparse signature, deduplicate and sort. -/
def convert_sparse (S T : KmerSpec) (sig : List Nat) : List Nat :=
  sortedUnique (sig.filterMap (convertIndex S T))

/-- Modelled from the spec (§4.4): `convert_dense` — the dense form of the
conversion (logical-OR collapse of all source indices mapping to a target
position). -/
def convert_dense (S T : KmerSpec) (vec : List Bool) : List Bool :=
  (List.range T.nkmers).map fun j =>
    decide (j ∈ (dense_to_sparse vec).filterMap (convertIndex S T))

/-- Modelled from the spec (§3, §7): the validating `KmerSpec` constructor —
canonicalizes the prefix and fails on an empty or invalid-alphabet prefix or
an unrepresentable `k`. -/
def mkKmerSpec (k : Nat) (pre : List Nat) : Except String KmerSpec :=
  match decodeSeq pre with
  | none => Except.error "prefix contains an invalid nucleotide"
  | some bs =>
    if bs = [] then Except.error "prefix must not be empty"
    else if 32 < k then Except.error "k out of representable range"
    else Except.ok ⟨k, bs⟩

/-- The two kinds of exception `kspec_from_params` can surface: a
`click.ClickException` of its own, or a `ValueError` propagated from the
`KmerSpec` constructor. -/
inductive CliError : Type
  | click (msg : String)
  | valueError (msg : String)
deriving DecidableEq, Repr

/-- Embedded from `gambit/cli/common.py` (`kspec_from_params`): `None` when
both parameters are absent, a `ClickException` when exactly one is absent,
otherwise the result of `KmerSpec(k, prefix)`. -/
def kspec_from_params (k : Option Nat) (pre : Option (List Nat)) :
    Except CliError (Option KmerSpec) :=
  match k, pre with
  | none, none => Except.ok none
  | some kv, some pv =>
    match mkKmerSpec kv pv with
    | Except.ok sp => Except.ok (some sp)
    | Except.error e => Except.error (CliError.valueError e)
  | _, _ => Except.error (CliError.click "Must specify values for both -k and --prefix arguments.")

/-- Modelled from the spec (§4.6, missing `gambit/signatures/calc.py`):
the aggregate signature of one source — the union of the k-mer sets of all
its records, sorted ascending (`calc_signature`). -/
def calc_signature (sp : KmerSpec) (records : List (List Nat)) : List Nat :=
  sortedUnique ((records.map (findKmerList sp)).flatten)

/-- The three concurrency modes of `calc_file_signatures`. -/
inductive Concurrency : Type
  | sequential
  | threads
  | processes
deriving DecidableEq, Repr

/-- Modelled from the spec (§4.6): the fully sequential pipeline — one
aggregate signature per source, in source order. -/
def calc_file_signatures_serial (sp : KmerSpec) (sources : List (List (List Nat))) :
    List (List Nat) :=
  sources.map (calc_signature sp)

/-- Modelled from the spec (§4.6, §5, design note on the executor
abstraction): a worker pool computes the per-source units independently;
`completion` is the order in which workers finish (each unit tagged with its
source index); the final array is assembled in original source order
regardless of that completion order. -/
def calc_file_signatures_pool (sp : KmerSpec) (sources : List (List (List Nat)))
    (completion : List Nat) : List (List Nat) :=
  let results := completion.map fun i => (i, calc_signature sp (sources.getD i []))
  (List.range sources.length).map fun i =>
    ((results.find? fun r => r.1 == i).map Prod.snd).getD []

/-- Modelled from the spec (§5): `calc_file_signatures` dispatching on the
concurrency mode; the thread pool and the process pool are both instances of
the same executor abstraction, differing only in where units run. -/
def calc_file_signatures (sp : KmerSpec) (sources : List (List (List Nat)))
    (mode : Concurrency) (completion : List Nat) : List (List Nat) :=
  match mode with
  | Concurrency.sequential => calc_file_signatures_serial sp sources
  | Concurrency.threads => calc_file_signatures_pool sp sources completion
  | Concurrency.processes => calc_file_signatures_pool sp sources completion

/-! ### Supporting lemmas for the claims -/

lemma find_kmers_eq_of_mem_iff {sp : KmerSpec} {s₁ s₂ : List Nat}
    (h : ∀ i, i ∈ findKmerList sp s₁ ↔ i ∈ findKmerList sp s₂) :
    find_kmers sp s₁ = find_kmers sp s₂ :=
  sortedUnique_eq_sortedUnique h

lemma find_dense_eq_of_mem_iff {sp : KmerSpec} {s₁ s₂ : List Nat}
    (h : ∀ i, i ∈ findKmerList sp s₁ ↔ i ∈ findKmerList sp s₂) :
    find_dense sp s₁ = find_dense sp s₂ := by
  unfold find_dense
  exact List.map_congr_left fun i _ => decide_eq_decide.mpr (h i)

lemma map_baseChar_eq_upper {s : List Nat} {bs : List Base}
    (h : s.map baseOf = bs.map some) : bs.map baseChar = s.map upperByte := by
  induction s generalizing bs with
  | nil =>
    cases bs <;> simp_all
  | cons c t ih =>
    cases bs with
    | nil => simp at h
    | cons b bs' =>
      simp only [List.map_cons, List.cons.injEq] at h ⊢
      exact ⟨(baseChar_eq_upperByte h.1).symm ▸ rfl, ih h.2⟩

lemma decodeSeq_valid_of_some {s : List Nat} {bs : List Base}
    (h : decodeSeq s = some bs) : ∀ c ∈ s, (baseOf c).isSome := by
  intro c hc
  have hmap := decodeSeq_eq_some.mp h
  have : baseOf c ∈ s.map baseOf := List.mem_map_of_mem baseOf hc
  rw [hmap] at this
  obtain ⟨b, _, hb⟩ := List.mem_map.mp this
  rw [← hb]
  rfl

lemma getD_map_range {α : Type} (f : Nat → α) (d : α) {n i : Nat} (h : i < n) :
    ((List.range n).map f).getD i d = f i := by
  rw [List.getD_eq_getElem _ _ (by simpa using h)]
  simp

lemma mem_dense_to_sparse {vec : List Bool} {i : Nat} :
    i ∈ dense_to_sparse vec ↔ i < vec.length ∧ vec.getD i false = true := by
  unfold dense_to_sparse
  rw [List.mem_filter, List.mem_range]

lemma sorted_dense_to_sparse (vec : List Bool) :
    (dense_to_sparse vec).Sorted (· < ·) :=
  (List.pairwise_lt_range _).filter _

/-! ### Hit-shape lemmas and KmerSpec conversion -/

lemma map_some_inj {α : Type} {l₁ l₂ : List α} (h : l₁.map some = l₂.map some) :
    l₁ = l₂ :=
  List.map_injective_iff.mpr (fun a b hab => Option.some.inj hab) h

lemma fwdKmerAt_some_iff {sp : KmerSpec} {s : List Nat} {p i : Nat} :
    fwdKmerAt sp s p = some i ↔
      (window s p sp.prefx_len).map baseOf = sp.prefx.map some ∧
      ∃ bs, decodeSeq (window s (p + sp.prefx_len) sp.k) = some bs ∧
        bs.length = sp.k ∧ i = kmerIndex bs := by
  constructor
  · intro h
    rw [fwdKmerAt] at h
    split_ifs at h with hpre
    rcases hdec : decodeSeq (window s (p + sp.prefx_len) sp.k) with _ | bs <;>
      rw [hdec] at h
    · exact Option.noConfusion h
    · have h' : (if bs.length = sp.k then some (kmerIndex bs) else none) = some i := h
      split_ifs at h' with hlen
      injection h' with h'
      exact ⟨hpre, bs, rfl, hlen, h'.symm⟩
  · rintro ⟨hpre, bs, hdec, hlen, rfl⟩
    rw [fwdKmerAt, if_pos hpre, hdec]
    show (if bs.length = sp.k then some (kmerIndex bs) else none) = some (kmerIndex bs)
    rw [if_pos hlen]

lemma revKmerAt_some_iff {sp : KmerSpec} {s : List Nat} {q i : Nat} :
    revKmerAt sp s q = some i ↔
      sp.k ≤ q ∧
      (window s q sp.prefx_len).map baseOf = (rcBases sp.prefx).map some ∧
      ∃ bs, decodeSeq (window s (q - sp.k) sp.k) = some bs ∧
        bs.length = sp.k ∧ i = kmerIndex (rcBases bs) := by
  constructor
  · intro h
    rw [revKmerAt] at h
    split_ifs at h with hcond
    obtain ⟨hkq, hpre⟩ := hcond
    rcases hdec : decodeSeq (window s (q - sp.k) sp.k) with _ | bs <;> rw [hdec] at h
    · exact Option.noConfusion h
    · have h' : (if bs.length = sp.k then some (kmerIndex (rcBases bs)) else none) = some i := h
      split_ifs at h' with hlen
      injection h' with h'
      exact ⟨hkq, hpre, bs, rfl, hlen, h'.symm⟩
  · rintro ⟨hkq, hpre, bs, hdec, hlen, rfl⟩
    rw [revKmerAt, if_pos ⟨hkq, hpre⟩, hdec]
    show (if bs.length = sp.k then some (kmerIndex (rcBases bs)) else none) =
      some (kmerIndex (rcBases bs))
    rw [if_pos hlen]

lemma findKmerList_lt_nkmers {sp : KmerSpec} {s : List Nat} {i : Nat}
    (h : i ∈ findKmerList sp s) : i < sp.nkmers := by
  rcases mem_findKmerList.mp h with ⟨p, _, hf⟩ | ⟨q, _, hf⟩
  · obtain ⟨-, bs, -, hlen, rfl⟩ := fwdKmerAt_some_iff.mp hf
    have := kmerIndex_lt bs
    rwa [hlen] at this
  · obtain ⟨-, -, bs, -, hlen, rfl⟩ := revKmerAt_some_iff.mp hf
    have := kmerIndex_lt (rcBases bs)
    rwa [rcBases_length, hlen] at this

lemma rcBases_take (bs : List Base) (e : Nat) :
    (rcBases bs).take e = rcBases (bs.drop (bs.length - e)) := by
  unfold rcBases
  rw [List.take_reverse, List.length_map, List.map_drop]

lemma rcBases_drop_take (bs : List Base) (e k' : Nat) (h : e + k' ≤ bs.length) :
    ((rcBases bs).drop e).take k' = rcBases ((bs.drop (bs.length - e - k')).take k') := by
  unfold rcBases
  rw [List.drop_reverse, List.length_map, List.take_reverse, List.length_take,
    List.length_map, Nat.min_eq_left (Nat.sub_le _ _), List.drop_take, List.map_take,
    List.map_drop]
  congr 2
  omega

lemma convert_fwd {S T : KmerSpec} {s : List Nat} {p i j : Nat}
    (hr : ∃ r, T.prefx = S.prefx ++ r)
    (harith : T.prefx_len + T.k ≤ S.prefx_len + S.k)
    (hf : fwdKmerAt S s p = some i) (hc : convertIndex S T i = some j) :
    fwdKmerAt T s p = some j := by
  obtain ⟨r, hrT⟩ := hr
  have hTp : T.prefx_len = S.prefx_len + r.length := by
    simp [KmerSpec.prefx_len, hrT]
  obtain ⟨hpre, bs, hdec, hlen, rfl⟩ := fwdKmerAt_some_iff.mp hf
  simp only [convertIndex] at hc
  have hdk : decodeKmer S.k (kmerIndex bs) = bs := by
    rw [← hlen, decodeKmer_kmerIndex]
  have her : T.prefx_len - S.prefx_len = r.length := by omega
  have hdropT : T.prefx.drop S.prefx_len = r := by
    rw [hrT]
    exact List.drop_left _ _
  rw [hdk, her, hdropT] at hc
  split_ifs at hc with hfilt
  injection hc with hc
  subst hc
  apply fwdKmerAt_some_iff.mpr
  refine ⟨?_, (bs.drop r.length).take T.k, ?_, ?_, rfl⟩
  · rw [hTp, window_add, List.map_append, hrT, List.map_append, hpre]
    congr 1
    rw [← window_take s (p + S.prefx_len) S.k r.length (by omega), List.map_take,
      decodeSeq_eq_some.mp hdec, ← List.map_take, hfilt]
  · have hwb : window s (p + T.prefx_len) T.k =
        ((window s (p + S.prefx_len) S.k).drop r.length).take T.k := by
      rw [window_drop, window_take s _ _ _ (by omega), hTp, Nat.add_assoc]
    rw [hwb, decodeSeq_eq_some]
    simp only [List.map_take, List.map_drop, decodeSeq_eq_some.mp hdec]
  · rw [List.length_take, List.length_drop, hlen, Nat.min_eq_left (by omega)]

lemma fwd_hit_lifts {S T : KmerSpec} {s : List Nat} {p j : Nat}
    (hr : ∃ r, T.prefx = S.prefx ++ r)
    (harith : T.prefx_len + T.k ≤ S.prefx_len + S.k)
    (hvalid : ∀ c ∈ s, (baseOf c).isSome)
    (hT : fwdKmerAt T s p = some j)
    (hwin : p + S.total_len ≤ s.length) :
    ∃ i, fwdKmerAt S s p = some i ∧ convertIndex S T i = some j := by
  obtain ⟨r, hrT⟩ := hr
  have hTp : T.prefx_len = S.prefx_len + r.length := by
    simp [KmerSpec.prefx_len, hrT]
  have htot : S.total_len = S.prefx_len + S.k := rfl
  obtain ⟨hpreT, bsT, hdecT, hlenT, rfl⟩ := fwdKmerAt_some_iff.mp hT
  have hw1len : ((window s p S.prefx_len).map baseOf).length = (S.prefx.map some).length := by
    have hpl : S.prefx_len = S.prefx.length := rfl
    rw [List.length_map, window_length, List.length_map]
    omega
  have hsplit := hpreT
  rw [hTp, window_add, List.map_append, hrT, List.map_append] at hsplit
  obtain ⟨hpreS, hext⟩ := List.append_inj hsplit hw1len
  obtain ⟨bsS, hdecS⟩ := decodeSeq_of_all_valid
    (fun c hc => hvalid c (List.mem_of_mem_drop (List.mem_of_mem_take hc)))
    (l := window s (p + S.prefx_len) S.k)
  have hlenS : bsS.length = S.k := by
    rw [decodeSeq_length hdecS, window_length]
    omega
  refine ⟨kmerIndex bsS, fwdKmerAt_some_iff.mpr ⟨hpreS, bsS, hdecS, hlenS, rfl⟩, ?_⟩
  simp only [convertIndex]
  have hdk : decodeKmer S.k (kmerIndex bsS) = bsS := by
    rw [← hlenS, decodeKmer_kmerIndex]
  have her : T.prefx_len - S.prefx_len = r.length := by omega
  have hdropT : T.prefx.drop S.prefx_len = r := by
    rw [hrT]
    exact List.drop_left _ _
  rw [hdk, her, hdropT]
  have hfilt : bsS.take r.length = r := by
    apply map_some_inj
    rw [List.map_take, ← decodeSeq_eq_some.mp hdecS, ← List.map_take,
      window_take s (p + S.prefx_len) S.k r.length (by omega), hext]
  rw [if_pos hfilt]
  have hbsT : bsT = (bsS.drop r.length).take T.k := by
    apply map_some_inj
    rw [← decodeSeq_eq_some.mp hdecT]
    have hwb : window s (p + T.prefx_len) T.k =
        ((window s (p + S.prefx_len) S.k).drop r.length).take T.k := by
      rw [window_drop, window_take s _ _ _ (by omega), hTp, Nat.add_assoc]
    rw [hwb]
    simp only [List.map_take, List.map_drop, decodeSeq_eq_some.mp hdecS]
  rw [hbsT]

lemma convert_rev {S T : KmerSpec} {s : List Nat} {q i j : Nat}
    (hr : ∃ r, T.prefx = S.prefx ++ r)
    (harith : T.prefx_len + T.k ≤ S.prefx_len + S.k)
    (hrev : revKmerAt S s q = some i) (hc : convertIndex S T i = some j) :
    revKmerAt T s (q - (T.prefx_len - S.prefx_len)) = some j := by
  obtain ⟨r, hrT⟩ := hr
  have hTp : T.prefx_len = S.prefx_len + r.length := by
    simp [KmerSpec.prefx_len, hrT]
  have her : T.prefx_len - S.prefx_len = r.length := by omega
  rw [her]
  obtain ⟨hkq, hpre, bs, hdec, hlen, rfl⟩ := revKmerAt_some_iff.mp hrev
  simp only [convertIndex] at hc
  have hrblen : (rcBases bs).length = S.k := by rw [rcBases_length, hlen]
  have hdk : decodeKmer S.k (kmerIndex (rcBases bs)) = rcBases bs := by
    rw [← hrblen, decodeKmer_kmerIndex]
  have hdropT : T.prefx.drop S.prefx_len = r := by
    rw [hrT]
    exact List.drop_left _ _
  rw [hdk, her, hdropT] at hc
  split_ifs at hc with hfilt
  injection hc with hc
  subst hc
  have htail : bs.drop (S.k - r.length) = rcBases r := by
    have h1 := hfilt
    rw [rcBases_take, hlen] at h1
    have h2 := congrArg rcBases h1
    rwa [rcBases_rcBases] at h2
  apply revKmerAt_some_iff.mpr
  refine ⟨by omega, ?_, (bs.drop (S.k - r.length - T.k)).take T.k, ?_, ?_, ?_⟩
  · have hTp' : T.prefx_len = r.length + S.prefx_len := by omega
    rw [hTp', window_add, hrT, rcBases_append, List.map_append, List.map_append]
    have hq2 : q - r.length + r.length = q := by omega
    rw [hq2, hpre]
    congr 1
    have hww : window s (q - r.length) r.length =
        (window s (q - S.k) S.k).drop (S.k - r.length) := by
      rw [window_drop]
      congr 1
      · omega
      · omega
    rw [hww, List.map_drop, decodeSeq_eq_some.mp hdec, ← List.map_drop, htail]
  · have hww : window s (q - r.length - T.k) T.k =
        ((window s (q - S.k) S.k).drop (S.k - r.length - T.k)).take T.k := by
      rw [window_drop, window_take _ _ _ _ (by omega)]
      congr 1
      omega
    rw [hww, decodeSeq_eq_some]
    simp only [List.map_take, List.map_drop, decodeSeq_eq_some.mp hdec]
  · rw [List.length_take, List.length_drop, hlen, Nat.min_eq_left (by omega)]
  · rw [rcBases_drop_take bs r.length T.k (by omega), hlen]

lemma rev_hit_lifts {S T : KmerSpec} {s : List Nat} {q' j : Nat}
    (hr : ∃ r, T.prefx = S.prefx ++ r)
    (harith : T.prefx_len + T.k ≤ S.prefx_len + S.k)
    (hvalid : ∀ c ∈ s, (baseOf c).isSome)
    (hq : q' ≤ s.length)
    (hT : revKmerAt T s q' = some j)
    (hanchor : S.k - (T.prefx_len - S.prefx_len) ≤ q') :
    q' + (T.prefx_len - S.prefx_len) ≤ s.length ∧
    ∃ i, revKmerAt S s (q' + (T.prefx_len - S.prefx_len)) = some i ∧
      convertIndex S T i = some j := by
  obtain ⟨r, hrT⟩ := hr
  have hTp : T.prefx_len = S.prefx_len + r.length := by
    simp [KmerSpec.prefx_len, hrT]
  have her : T.prefx_len - S.prefx_len = r.length := by omega
  rw [her] at hanchor ⊢
  obtain ⟨hkT, hpreT, bsT, hdecT, hlenT, rfl⟩ := revKmerAt_some_iff.mp hT
  have hqTp : q' + T.prefx_len ≤ s.length :=
    window_bound hpreT (by rw [rcBases_length]; rfl) hq
  have hTp' : T.prefx_len = r.length + S.prefx_len := by omega
  have hsplit := hpreT
  rw [hTp', window_add, hrT, rcBases_append, List.map_append, List.map_append] at hsplit
  have hw1len : ((window s q' r.length).map baseOf).length = ((rcBases r).map some).length := by
    rw [List.length_map, window_length, List.length_map, rcBases_length]
    omega
  obtain ⟨hext, hpreS⟩ := List.append_inj hsplit hw1len
  obtain ⟨bsS, hdecS⟩ := decodeSeq_of_all_valid
    (fun c hc => hvalid c (List.mem_of_mem_drop (List.mem_of_mem_take hc)))
    (l := window s (q' + r.length - S.k) S.k)
  have hlenS : bsS.length = S.k := by
    rw [decodeSeq_length hdecS, window_length]
    omega
  refine ⟨by omega, kmerIndex (rcBases bsS),
    revKmerAt_some_iff.mpr ⟨by omega, hpreS, bsS, hdecS, hlenS, rfl⟩, ?_⟩
  simp only [convertIndex]
  have hrblen : (rcBases bsS).length = S.k := by rw [rcBases_length, hlenS]
  have hdk : decodeKmer S.k (kmerIndex (rcBases bsS)) = rcBases bsS := by
    rw [← hrblen, decodeKmer_kmerIndex]
  have hdropT : T.prefx.drop S.prefx_len = r := by
    rw [hrT]
    exact List.drop_left _ _
  rw [hdk, her, hdropT]
  have htail : bsS.drop (S.k - r.length) = rcBases r := by
    apply map_some_inj
    have hww : (window s (q' + r.length - S.k) S.k).drop (S.k - r.length) =
        window s q' r.length := by
      rw [window_drop]
      congr 1
      · omega
      · omega
    rw [List.map_drop, ← decodeSeq_eq_some.mp hdecS, ← List.map_drop, hww, hext]
  have hfilt : (rcBases bsS).take r.length = r := by
    rw [rcBases_take, hlenS, htail, rcBases_rcBases]
  rw [if_pos hfilt]
  have hbsT : bsT = (bsS.drop (S.k - r.length - T.k)).take T.k := by
    apply map_some_inj
    rw [← decodeSeq_eq_some.mp hdecT]
    have hww : window s (q' - T.k) T.k =
        ((window s (q' + r.length - S.k) S.k).drop (S.k - r.length - T.k)).take T.k := by
      rw [window_drop, window_take _ _ _ _ (by omega)]
      congr 1
      omega
    rw [hww]
    simp only [List.map_take, List.map_drop, decodeSeq_eq_some.mp hdecS]
  rw [hbsT, rcBases_drop_take bsS r.length T.k (by omega), hlenS]

/-- The side condition under which conversion loses nothing: every byte of
the sequence is a valid nucleotide, and every scan hit of the target spec
leaves room for the source spec's larger window (forward hits end at least
`S.total_len - T.total_len` before the end of the sequence; reverse hits
start at least `S.k - e` in). -/
def convertComplete (S T : KmerSpec) (s : List Nat) : Bool :=
  s.all (fun c => (baseOf c).isSome) &&
  ((List.range (s.length + 1)).all fun p =>
    (fwdKmerAt T s p).isNone || decide (p + S.total_len ≤ s.length)) &&
  ((List.range (s.length + 1)).all fun q =>
    (revKmerAt T s q).isNone || decide (S.k - (T.prefx_len - S.prefx_len) ≤ q))

lemma convertComplete_spec {S T : KmerSpec} {s : List Nat}
    (h : convertComplete S T s = true) :
    (∀ c ∈ s, (baseOf c).isSome) ∧
    (∀ p j, p ≤ s.length → fwdKmerAt T s p = some j → p + S.total_len ≤ s.length) ∧
    (∀ q j, q ≤ s.length → revKmerAt T s q = some j →
      S.k - (T.prefx_len - S.prefx_len) ≤ q) := by
  rw [convertComplete, Bool.and_eq_true, Bool.and_eq_true] at h
  obtain ⟨⟨h1, h2⟩, h3⟩ := h
  refine ⟨fun c hc => List.all_eq_true.mp h1 c hc, fun p j hp hf => ?_, fun q j hq hv => ?_⟩
  · have := List.all_eq_true.mp h2 p (List.mem_range.mpr (Nat.lt_succ_of_le hp))
    rw [hf] at this
    simpa using this
  · have := List.all_eq_true.mp h3 q (List.mem_range.mpr (Nat.lt_succ_of_le hq))
    rw [hv] at this
    simpa using this

lemma convert_core {S T : KmerSpec} {s : List Nat}
    (hr : ∃ r, T.prefx = S.prefx ++ r)
    (harith : T.prefx_len + T.k ≤ S.prefx_len + S.k) :
    (∀ j, (∃ i, i ∈ findKmerList S s ∧ convertIndex S T i = some j) →
      j ∈ findKmerList T s) ∧
    (convertComplete S T s = true → ∀ j, j ∈ findKmerList T s →
      ∃ i, i ∈ findKmerList S s ∧ convertIndex S T i = some j) := by
  constructor
  · rintro j ⟨i, hi, hc⟩
    rcases mem_findKmerList.mp hi with ⟨p, hp, hf⟩ | ⟨q, hq, hv⟩
    · exact mem_findKmerList.mpr (Or.inl ⟨p, hp, convert_fwd hr harith hf hc⟩)
    · exact mem_findKmerList.mpr
        (Or.inr ⟨q - (T.prefx_len - S.prefx_len), by omega, convert_rev hr harith hv hc⟩)
  · intro hcomp j hj
    obtain ⟨hvalid, hfwdC, hrevC⟩ := convertComplete_spec hcomp
    rcases mem_findKmerList.mp hj with ⟨p, hp, hT⟩ | ⟨q', hq, hT⟩
    · obtain ⟨i, hfS, hc⟩ :=
        fwd_hit_lifts hr harith hvalid hT (hfwdC p j hp hT)
      exact ⟨i, mem_findKmerList.mpr (Or.inl ⟨p, hp, hfS⟩), hc⟩
    · obtain ⟨hle, i, hrS, hc⟩ :=
        rev_hit_lifts hr harith hvalid hq hT (hrevC q' j hq hT)
      exact ⟨i, mem_findKmerList.mpr
        (Or.inr ⟨q' + (T.prefx_len - S.prefx_len), hle, hrS⟩), hc⟩

lemma mem_dense_to_sparse_find {sp : KmerSpec} {s : List Nat} {i : Nat} :
    i ∈ dense_to_sparse (find_dense sp s) ↔ i ∈ findKmerList sp s := by
  rw [mem_dense_to_sparse]
  unfold find_dense
  simp only [List.length_map, List.length_range]
  constructor
  · rintro ⟨hi, hget⟩
    rw [getD_map_range _ _ hi] at hget
    exact of_decide_eq_true hget
  · intro h
    have hi := findKmerList_lt_nkmers h
    exact ⟨hi, by rw [getD_map_range _ _ hi]; exact decide_eq_true h⟩

lemma find?_map_tag {α : Type} (f : Nat → α) (l : List Nat) (i : Nat) (h : i ∈ l) :
    (l.map fun j => (j, f j)).find? (fun r => r.1 == i) = some (i, f i) := by
  induction l with
  | nil => simp at h
  | cons j t ih =>
    rw [List.map_cons]
    by_cases hji : j = i
    · subst hji
      rw [List.find?_cons_of_pos _ (by simp)]
    · rw [List.find?_cons_of_neg _ (by simp [hji])]
      refine ih ?_
      rcases List.mem_cons.mp h with rfl | hm
      · exact absurd rfl hji
      · exact hm

/-! ### Signature arrays (embedded from `gambit/signatures/array.py`) -/

/-- Embedded from `gambit/signatures/array.py` (`SignatureArray`): an
ordered collection of sparse signatures as two buffers — all signatures'
k-mer indices concatenated in `values`, and the `bounds` offsets such that
signature `i` is `values[bounds[i]:bounds[i+1]]`. Numpy dtypes are
abstracted away: every element is a `Nat`. -/
structure SigArray where
  values : List Nat
  bounds : List Nat
deriving DecidableEq, Repr

/-- Python's slice `l[i:j]` for non-negative `i`, `j` (clamped to the list's
length, empty when `j ≤ i`). -/
def listSlice {α : Type} (l : List α) (i j : Nat) : List α :=
  (l.drop i).take (j - i)

/-- `ConcatenatedSignatureArray.__len__`: `len(bounds) - 1`. -/
def SigArray.len (a : SigArray) : Nat := a.bounds.length - 1

/-- `_getitem_int`: signature `i` is `values[bounds[i]:bounds[i+1]]`. -/
def SigArray.getSig (a : SigArray) (i : Nat) : List Nat :=
  listSlice a.values (a.bounds.getD i 0) (a.bounds.getD (i + 1) 0)

/-- `ConcatenatedSignatureArray.sizeof` (after `_check_index` has accepted
the in-range index): `bounds[i+1] - bounds[i]`. -/
def SigArray.sizeof (a : SigArray) (i : Nat) : Nat :=
  a.bounds.getD (i + 1) 0 - a.bounds.getD i 0

/-- `ConcatenatedSignatureArray.sizes`: `np.diff(bounds)`. -/
def SigArray.sizes (a : SigArray) : List Nat :=
  (List.range a.len).map fun i => a.bounds.getD (i + 1) 0 - a.bounds.getD i 0

/-- Boolean test that a list of offsets is non-decreasing. -/
def nondecr : List Nat → Bool
  | a :: b :: t => decide (a ≤ b) && nondecr (b :: t)
  | _ => true

/-- The bounds invariant (spec §3/§4.5): `bounds` is a nonempty offset array
with `bounds[0] = 0`, `bounds[len(array)] = len(values)`, non-decreasing. -/
def SigArray.inv (a : SigArray) : Prop :=
  a.bounds ≠ [] ∧ a.bounds.headD 0 = 0 ∧ a.bounds.getLastD 0 = a.values.length ∧
    nondecr a.bounds = true

/-- The prefix-sum offsets `[acc, acc+l₀, acc+l₀+l₁, …]`, as
`np.zeros(N+1)` followed by `np.cumsum(lengths, out=bounds[1:])` builds
them. -/
def cumBounds (acc : Nat) : List Nat → List Nat
  | [] => [acc]
  | x :: t => acc :: cumBounds (acc + x) t

/-- `SignatureArray._unint_arrays`: cumulative bounds from the lengths, and
an uninitialized values buffer of size `bounds[-1]` (uninitialized memory is
modelled as zeros). -/
def SigArray.unintArrays (lengths : List Nat) : SigArray :=
  let bounds := cumBounds 0 lengths
  { values := List.replicate (bounds.getLastD 0) 0, bounds := bounds }

/-- `np.copyto(values[start:start+len(sig)], sig)`: overwrite a slot of the
buffer. -/
def writeSlice (vals : List Nat) (start : Nat) (sig : List Nat) : List Nat :=
  vals.take start ++ sig ++ vals.drop (start + sig.length)

/-- The allocate-then-fill loop shared by `SignatureArray.__init__` and
`_getitem_int_array`: uninitialized buffers for the given lengths, then each
signature copied into its slot at `bounds[i]`. -/
def packInto (lengths : List Nat) (sigs : List (List Nat)) : SigArray :=
  let a := SigArray.unintArrays lengths
  { values := (sigs.enum).foldl (fun v pr => writeSlice v (a.bounds.getD pr.1 0) pr.2)
      a.values,
    bounds := a.bounds }

/-- `SignatureArray.__init__` from a sequence of signatures (the general,
non-`SignatureArray` branch). -/
def SigArray.init (sigs : List (List Nat)) : SigArray :=
  packInto (sigs.map List.length) sigs

/-- `SignatureArray.from_arrays`: direct injection of a values/bounds pair,
with no validation. -/
def SigArray.from_arrays (values bounds : List Nat) : SigArray :=
  { values := values, bounds := bounds }

/-- `SignatureArray.uninitialized`. -/
def SigArray.uninit (lengths : List Nat) : SigArray :=
  SigArray.unintArrays lengths

/-- `ConcatenatedSignatureArray._getitem_int_array`: gather the selected
signatures into freshly allocated buffers sized by `sizeof`. -/
def SigArray.getIntArray (a : SigArray) (idxs : List Nat) : SigArray :=
  packInto (idxs.map fun i => a.sizeof i) (idxs.map fun i => a.getSig i)

/-- `ConcatenatedSignatureArray._getitem_slice` for `0 ≤ start, stop ≤ len`
with unit step: a non-empty slice shares the values buffer (extensionally,
the exact subrange) with re-based bounds; an empty slice falls back to the
advanced-indexing path (`AdvancedIndexingMixin._getitem_slice`, modelled
from the spec §4.5 — `gambit/util/indexing.py` is not in the snapshot). -/
def SigArray.getSlice (a : SigArray) (start stop : Nat) : SigArray :=
  if stop ≤ start then a.getIntArray (List.range' start (stop - start))
  else SigArray.from_arrays
    (listSlice a.values (a.bounds.getD start 0) (a.bounds.getD stop 0))
    ((listSlice a.bounds start (stop + 1)).map fun x => x - a.bounds.getD start 0)

/-- Modelled from numpy: `np.fromiter(iterable, dtype, …)` requires its
`dtype` argument; a call without one raises `TypeError` (modelled as
`none`). -/
def npFromiter (f : Nat → Nat) (n : Nat) (dtype : Option Unit) : Option (List Nat) :=
  match dtype with
  | some _ => some ((List.range n).map f)
  | none => none

/-- `AbstractSignatureArray.sizes`, the derived default implementation:
`np.fromiter(map(self.sizeof, range(len(self))))`, written without the
`dtype` argument `np.fromiter` requires. -/
def abstractSizesDefault (a : SigArray) : Option (List Nat) :=
  npFromiter (fun i => a.sizeof i) a.len none

lemma nondecr_iff_chain' : ∀ {l : List Nat}, nondecr l = true ↔ l.Chain' (· ≤ ·)
  | [] => by simp [nondecr]
  | [a] => by simp [nondecr]
  | a :: b :: t => by
    rw [nondecr, Bool.and_eq_true, decide_eq_true_eq, List.chain'_cons, nondecr_iff_chain']

lemma nondecr_getD_le {l : List Nat} (h : nondecr l = true) {i j : Nat}
    (hij : i ≤ j) (hj : j < l.length) : l.getD i 0 ≤ l.getD j 0 := by
  have hpw : l.Pairwise (· ≤ ·) := List.chain'_iff_pairwise.mp (nondecr_iff_chain'.mp h)
  rcases Nat.eq_or_lt_of_le hij with rfl | hlt
  · exact Nat.le_refl _
  · rw [List.getD_eq_getElem _ _ (by omega), List.getD_eq_getElem _ _ hj]
    exact List.pairwise_iff_getElem.mp hpw i j (by omega) hj hlt

lemma getLastD_eq_getD : ∀ {l : List Nat}, l ≠ [] →
      ∀ d, l.getLastD d = l.getD (l.length - 1) 0
  | [], h, _ => absurd rfl h
  | [a], _, d => rfl
  | a :: b :: t, _, d => by
    rw [List.getLastD_cons, getLastD_eq_getD (List.cons_ne_nil b t) a]
    simp only [List.length_cons]
    rw [show b :: t = (a :: b :: t).tail from rfl]
    rfl

lemma nondecr_getD_le_last {l : List Nat} (h : nondecr l = true) (hne : l ≠ [])
    (i : Nat) : l.getD i 0 ≤ l.getLastD 0 := by
  rcases Nat.lt_or_ge i l.length with hi | hi
  · rw [getLastD_eq_getD hne]
    exact nondecr_getD_le h (by omega) (by
      have := List.length_pos.mpr hne
      omega)
  · rw [List.getD_eq_default _ _ hi]
    exact Nat.zero_le _

lemma cumBounds_ne_nil (acc : Nat) (l : List Nat) : cumBounds acc l ≠ [] := by
  cases l <;> simp [cumBounds]

lemma cumBounds_length (acc : Nat) (l : List Nat) :
    (cumBounds acc l).length = l.length + 1 := by
  induction l generalizing acc with
  | nil => rfl
  | cons x t ih => simp [cumBounds, ih]

lemma cumBounds_getD_zero (acc : Nat) (l : List Nat) :
    (cumBounds acc l).getD 0 0 = acc := by
  cases l <;> rfl

lemma cumBounds_headD (acc : Nat) (l : List Nat) :
    (cumBounds acc l).headD 0 = acc := by
  cases l <;> rfl

lemma cumBounds_getLastD (acc : Nat) (l : List Nat) :
    ∀ d, (cumBounds acc l).getLastD d = acc + l.sum := by
  induction l generalizing acc with
  | nil => simp [cumBounds]
  | cons x t ih =>
    intro d
    rw [cumBounds, List.getLastD_cons, ih (acc + x) acc, List.sum_cons]
    omega

lemma cumBounds_nondecr (acc : Nat) (l : List Nat) : nondecr (cumBounds acc l) = true := by
  induction l generalizing acc with
  | nil => rfl
  | cons x t ih =>
    show nondecr (acc :: cumBounds (acc + x) t) = true
    cases t with
    | nil => simp [cumBounds, nondecr]
    | cons y t' =>
      have h1 := ih (acc + x)
      rw [cumBounds] at h1 ⊢
      rw [nondecr, Bool.and_eq_true, decide_eq_true_eq]
      exact ⟨Nat.le_add_right acc x, h1⟩

lemma cumBounds_getD_succ {l : List Nat} {i : Nat} (acc : Nat) (hi : i < l.length) :
    (cumBounds acc l).getD (i + 1) 0 = (cumBounds acc l).getD i 0 + l.getD i 0 := by
  induction l generalizing acc i with
  | nil => exact absurd hi (by simp)
  | cons x t ih =>
    rw [cumBounds]
    cases i with
    | zero =>
      rw [List.getD_cons_succ, List.getD_cons_zero, List.getD_cons_zero,
        cumBounds_getD_zero]
    | succ i' =>
      rw [List.getD_cons_succ, List.getD_cons_succ, List.getD_cons_succ,
        ih (acc + x) (by simpa using hi)]

lemma writeSlice_length {vals sig : List Nat} {start : Nat}
    (h : start + sig.length ≤ vals.length) :
    (writeSlice vals start sig).length = vals.length := by
  unfold writeSlice
  rw [List.length_append, List.length_append, List.length_take, List.length_drop,
    Nat.min_eq_left (by omega)]
  omega

lemma foldl_writeSlice_length {bounds : List Nat} (ps : List (Nat × List Nat))
    (v : List Nat)
    (h : ∀ pr ∈ ps, bounds.getD pr.1 0 + pr.2.length ≤ v.length) :
    (ps.foldl (fun v pr => writeSlice v (bounds.getD pr.1 0) pr.2) v).length =
      v.length := by
  induction ps generalizing v with
  | nil => rfl
  | cons pr t ih =>
    rw [List.foldl_cons]
    have hw : (writeSlice v (bounds.getD pr.1 0) pr.2).length = v.length :=
      writeSlice_length (h pr (List.mem_cons_self pr t))
    rw [ih _ (fun pr' hpr' => by rw [hw]; exact h pr' (List.mem_cons_of_mem _ hpr')), hw]

lemma packInto_bounds (lengths : List Nat) (sigs : List (List Nat)) :
    (packInto lengths sigs).bounds = cumBounds 0 lengths := rfl

lemma packInto_values_length {lengths : List Nat} {sigs : List (List Nat)}
    (h : ∀ pr ∈ sigs.enum, pr.1 < lengths.length ∧
      pr.2.length = lengths.getD pr.1 0) :
    (packInto lengths sigs).values.length = lengths.sum := by
  show ((sigs.enum).foldl _ (SigArray.unintArrays lengths).values).length = lengths.sum
  have hv : (SigArray.unintArrays lengths).values.length = lengths.sum := by
    show (List.replicate ((cumBounds 0 lengths).getLastD 0) 0).length = lengths.sum
    rw [List.length_replicate, cumBounds_getLastD]
    omega
  rw [foldl_writeSlice_length _ _ ?_, hv]
  intro pr hpr
  obtain ⟨hplen, hpsig⟩ := h pr hpr
  rw [hv, hpsig]
  have hbb : (SigArray.unintArrays lengths).bounds = cumBounds 0 lengths := rfl
  rw [hbb]
  have hsucc := cumBounds_getD_succ (l := lengths) 0 hplen
  have hle := nondecr_getD_le_last (cumBounds_nondecr 0 lengths)
    (cumBounds_ne_nil 0 lengths) (pr.1 + 1)
  rw [cumBounds_getLastD] at hle
  omega

lemma packInto_inv {lengths : List Nat} {sigs : List (List Nat)}
    (h : ∀ pr ∈ sigs.enum, pr.1 < lengths.length ∧
      pr.2.length = lengths.getD pr.1 0) :
    (packInto lengths sigs).inv := by
  refine ⟨cumBounds_ne_nil 0 lengths, cumBounds_headD 0 lengths, ?_,
    cumBounds_nondecr 0 lengths⟩
  rw [show (packInto lengths sigs).bounds = cumBounds 0 lengths from rfl,
    cumBounds_getLastD, packInto_values_length h]
  omega

lemma mem_enum_unpack {α : Type} {l : List α} {pr : Nat × α} (h : pr ∈ l.enum) :
    ∃ hlt : pr.1 < l.length, l[pr.1] = pr.2 := by
  have hget := List.mem_enum_iff_get?.mp h
  rw [List.get?_eq_getElem?] at hget
  exact List.getElem?_eq_some.mp hget

lemma init_inv (sigs : List (List Nat)) : (SigArray.init sigs).inv := by
  unfold SigArray.init
  apply packInto_inv
  intro pr hpr
  obtain ⟨hlt, hval⟩ := mem_enum_unpack hpr
  refine ⟨by simpa using hlt, ?_⟩
  rw [List.getD_eq_getElem _ _ (by simpa using hlt), List.getElem_map, hval]

lemma uninit_inv (lengths : List Nat) : (SigArray.uninit lengths).inv := by
  refine ⟨cumBounds_ne_nil 0 lengths, cumBounds_headD 0 lengths, ?_,
    cumBounds_nondecr 0 lengths⟩
  show (cumBounds 0 lengths).getLastD 0 = (List.replicate _ 0).length
  rw [List.length_replicate]

lemma getSig_length {a : SigArray} (h : a.inv) {i : Nat} (hi : i < a.len) :
    (a.getSig i).length = a.sizeof i := by
  obtain ⟨hne, h0, hlast, hmono⟩ := h
  unfold SigArray.getSig SigArray.sizeof listSlice
  rw [List.length_take, List.length_drop]
  have hblen : 0 < a.bounds.length := List.length_pos.mpr hne
  have hi1 : i + 1 < a.bounds.length := by
    unfold SigArray.len at hi
    omega
  have hle1 : a.bounds.getD i 0 ≤ a.bounds.getD (i + 1) 0 :=
    nondecr_getD_le hmono (by omega) hi1
  have hle2 : a.bounds.getD (i + 1) 0 ≤ a.values.length := by
    rw [← hlast]
    exact nondecr_getD_le_last hmono hne (i + 1)
  omega

lemma getIntArray_inv {a : SigArray} (h : a.inv) {idxs : List Nat}
    (hidx : ∀ i ∈ idxs, i < a.len) : (a.getIntArray idxs).inv := by
  unfold SigArray.getIntArray
  apply packInto_inv
  intro pr hpr
  obtain ⟨hlt, hval⟩ := mem_enum_unpack hpr
  rw [List.length_map] at hlt
  have hmem : idxs[pr.1] ∈ idxs := List.getElem_mem _
  refine ⟨by simpa using hlt, ?_⟩
  rw [List.getD_eq_getElem _ _ (by simpa using hlt), List.getElem_map]
  rw [← hval, List.getElem_map]
  exact getSig_length ⟨h.1, h.2.1, h.2.2.1, h.2.2.2⟩ (hidx _ hmem)

lemma listSlice_length {α : Type} (l : List α) (i j : Nat) :
    (listSlice l i j).length = min (j - i) (l.length - i) := by
  simp [listSlice]

lemma listSlice_getD {l : List Nat} {i j t : Nat}
    (h : t < min (j - i) (l.length - i)) :
    (listSlice l i j).getD t 0 = l.getD (i + t) 0 := by
  have h1 : t < (listSlice l i j).length := by rw [listSlice_length]; exact h
  rw [List.getD_eq_getElem _ _ h1, List.getD_eq_getElem _ _ (by omega)]
  unfold listSlice
  rw [List.getElem_take, List.getElem_drop]

lemma nondecr_listSlice_map_sub {l : List Nat} (h : nondecr l = true) (i j c : Nat) :
    nondecr ((listSlice l i j).map fun x => x - c) = true := by
  rw [nondecr_iff_chain'] at h ⊢
  rw [List.chain'_map]
  unfold listSlice
  exact ((h.drop i).take (j - i)).imp fun a b hab => Nat.sub_le_sub_right hab c

lemma inv_mk {v b : List Nat} (h1 : b ≠ []) (h2 : b.headD 0 = 0)
    (h3 : b.getLastD 0 = v.length) (h4 : nondecr b = true) :
    (SigArray.from_arrays v b).inv :=
  ⟨h1, h2, h3, h4⟩

instance (a : SigArray) : Decidable a.inv := by
  unfold SigArray.inv
  infer_instance

lemma headD_eq_getD_zero {l : List Nat} : l.headD 0 = l.getD 0 0 := by
  cases l <;> rfl

lemma getSlice_inv {a : SigArray} (h : a.inv) {start stop : Nat}
    (hstop : stop ≤ a.len) : (a.getSlice start stop).inv := by
  unfold SigArray.getSlice
  split_ifs with hss
  · exact getIntArray_inv h fun i hi => absurd hi (by simp [Nat.sub_eq_zero_of_le hss])
  · push_neg at hss
    obtain ⟨hne, h0, hlast, hmono⟩ := h
    have hblen : a.bounds.length = a.len + 1 := by
      unfold SigArray.len
      have := List.length_pos.mpr hne
      omega
    have hslen : ((listSlice a.bounds start (stop + 1)).map
        fun x => x - a.bounds.getD start 0).length = stop + 1 - start := by
      rw [List.length_map, listSlice_length]
      omega
    have hget : ∀ t, t < stop + 1 - start →
        ((listSlice a.bounds start (stop + 1)).map
          fun x => x - a.bounds.getD start 0).getD t 0 =
          a.bounds.getD (start + t) 0 - a.bounds.getD start 0 := by
      intro t ht
      have ht1 : t < (listSlice a.bounds start (stop + 1)).length := by
        rw [listSlice_length]
        omega
      rw [List.getD_eq_getElem _ _ (by rw [List.length_map]; exact ht1),
        List.getElem_map, ← List.getD_eq_getElem _ 0 ht1,
        listSlice_getD (by omega)]
    refine inv_mk ?_ ?_ ?_ (nondecr_listSlice_map_sub hmono _ _ _)
    · intro hnil
      have := congrArg List.length hnil
      rw [hslen] at this
      simp at this
      omega
    · rw [headD_eq_getD_zero, hget 0 (by omega), Nat.add_zero, Nat.sub_self]
    · rw [getLastD_eq_getD (by
        intro hnil
        have := congrArg List.length hnil
        rw [hslen] at this
        simp at this
        omega) 0, List.length_map, listSlice_length]
      have hls : min (stop + 1 - start) (a.bounds.length - start) = stop + 1 - start := by
        omega
      rw [hls, show stop + 1 - start - 1 = stop - start from by omega,
        hget (stop - start) (by omega), show start + (stop - start) = stop from by omega]
      rw [listSlice_length]
      have hle1 : a.bounds.getD start 0 ≤ a.bounds.getD stop 0 :=
        nondecr_getD_le hmono (by omega) (by omega)
      have hle2 : a.bounds.getD stop 0 ≤ a.values.length := by
        rw [← hlast]
        exact nondecr_getD_le_last hmono hne stop
      omega

lemma from_arrays_len (v b : List Nat) :
    (SigArray.from_arrays v b).len = b.length - 1 := rfl

lemma mapped_slice_getD {l : List Nat} {start stop t : Nat} (hts : t < stop + 1 - start)
    (hsl : stop < l.length) :
    ((listSlice l start (stop + 1)).map fun x => x - l.getD start 0).getD t 0 =
      l.getD (start + t) 0 - l.getD start 0 := by
  have ht1 : t < (listSlice l start (stop + 1)).length := by
    rw [listSlice_length]
    omega
  rw [List.getD_eq_getElem _ _ (by rw [List.length_map]; exact ht1), List.getElem_map,
    ← List.getD_eq_getElem _ 0 ht1, listSlice_getD (by omega)]

lemma getSig_getSlice {a : SigArray} (h : a.inv) {start stop i : Nat}
    (hlt : start < stop) (hstop : stop ≤ a.len) (hi : i < stop - start) :
    (a.getSlice start stop).getSig i = a.getSig (start + i) := by
  obtain ⟨hne, h0, hlast, hmono⟩ := h
  have hblen : a.bounds.length = a.len + 1 := by
    unfold SigArray.len
    have := List.length_pos.mpr hne
    omega
  have hslice : a.getSlice start stop = SigArray.from_arrays
      (listSlice a.values (a.bounds.getD start 0) (a.bounds.getD stop 0))
      ((listSlice a.bounds start (stop + 1)).map fun x => x - a.bounds.getD start 0) := by
    unfold SigArray.getSlice
    rw [if_neg (by omega)]
  rw [hslice]
  show listSlice (listSlice a.values (a.bounds.getD start 0) (a.bounds.getD stop 0))
      (((listSlice a.bounds start (stop + 1)).map
        fun x => x - a.bounds.getD start 0).getD i 0)
      (((listSlice a.bounds start (stop + 1)).map
        fun x => x - a.bounds.getD start 0).getD (i + 1) 0) =
    a.getSig (start + i)
  rw [mapped_slice_getD (by omega) (by omega), mapped_slice_getD (by omega) (by omega),
    show start + (i + 1) = start + i + 1 from rfl]
  have m1 : a.bounds.getD start 0 ≤ a.bounds.getD (start + i) 0 :=
    nondecr_getD_le hmono (by omega) (by omega)
  have m2 : a.bounds.getD (start + i) 0 ≤ a.bounds.getD (start + i + 1) 0 :=
    nondecr_getD_le hmono (by omega) (by omega)
  have m3 : a.bounds.getD (start + i + 1) 0 ≤ a.bounds.getD stop 0 :=
    nondecr_getD_le hmono (by omega) (by omega)
  have m4 : a.bounds.getD stop 0 ≤ a.values.length := by
    rw [← hlast]
    exact nondecr_getD_le_last hmono hne stop
  unfold SigArray.getSig listSlice
  rw [List.drop_take, List.drop_drop, List.take_take]
  congr 1
  · omega
  · congr 1
    omega

/-! ## Claim theorems -/

/-- **C1** (amended): for every compatible pair `(S, T)` and every sequence,
converting `S`'s signature to `T` yields a subset of the signature obtained
by rescanning under `T`; and whenever every `T`-hit leaves room for the full
`S`-window (`convertComplete`, in particular on all-valid sequences whose
hits stay clear of the ends), the conversion equals the rescan exactly, in
both sparse and dense form. -/
theorem convert_matches_rescan (S T : KmerSpec) (hcc : can_convert S T = true)
    (s : List Nat) :
    (∀ j, j ∈ convert_sparse S T (find_kmers S s) → j ∈ find_kmers T s) ∧
    (convertComplete S T s = true →
      convert_sparse S T (find_kmers S s) = find_kmers T s ∧
      convert_dense S T (find_dense S s) = find_dense T s) := by
  rw [can_convert, Bool.and_eq_true, decide_eq_true_eq, isPre_iff] at hcc
  obtain ⟨hr, harith⟩ := hcc
  obtain ⟨hsub, hcompl⟩ := convert_core (s := s) hr harith
  have hmem : ∀ j, j ∈ convert_sparse S T (find_kmers S s) ↔
      ∃ i, i ∈ findKmerList S s ∧ convertIndex S T i = some j := by
    intro j
    unfold convert_sparse find_kmers
    rw [mem_sortedUnique, List.mem_filterMap]
    constructor
    · rintro ⟨i, hi, hc⟩
      exact ⟨i, mem_sortedUnique.mp hi, hc⟩
    · rintro ⟨i, hi, hc⟩
      exact ⟨i, mem_sortedUnique.mpr hi, hc⟩
  constructor
  · intro j hj
    rw [find_kmers, mem_sortedUnique]
    exact hsub j ((hmem j).mp hj)
  · intro hcomp
    constructor
    · have hs1 : (convert_sparse S T (find_kmers S s)).Sorted (· < ·) :=
        sorted_sortedUnique _
      have hs2 : (find_kmers T s).Sorted (· < ·) := sorted_sortedUnique _
      refine sorted_lt_eq_of_mem_iff hs1 hs2 ?_
      intro j
      rw [hmem j, find_kmers, mem_sortedUnique]
      exact ⟨hsub j, hcompl hcomp j⟩
    · show (List.range T.nkmers).map
          (fun j => decide (j ∈ (dense_to_sparse (find_dense S s)).filterMap
            (convertIndex S T))) =
        (List.range T.nkmers).map (fun i => decide (i ∈ findKmerList T s))
      refine List.map_congr_left fun j _ => decide_eq_decide.mpr ?_
      rw [List.mem_filterMap]
      constructor
      · rintro ⟨i, hi, hc⟩
        exact hsub j ⟨i, mem_dense_to_sparse_find.mp hi, hc⟩
      · intro hj
        obtain ⟨i, hi, hc⟩ := hcompl hcomp j hj
        exact ⟨i, mem_dense_to_sparse_find.mpr hi, hc⟩

/-- Witness for C1 at `S = KmerSpec(2, "A")`, `T = KmerSpec(1, "A")` over
the all-valid sequence `"ACGT"`, whose hits leave room for the `S`-window. -/
theorem convert_matches_rescan_witness :
    (∀ j, j ∈ convert_sparse ⟨2, [Base.A]⟩ ⟨1, [Base.A]⟩
        (find_kmers ⟨2, [Base.A]⟩ [65, 67, 71, 84]) →
      j ∈ find_kmers ⟨1, [Base.A]⟩ [65, 67, 71, 84]) ∧
    convert_sparse ⟨2, [Base.A]⟩ ⟨1, [Base.A]⟩
        (find_kmers ⟨2, [Base.A]⟩ [65, 67, 71, 84]) =
      find_kmers ⟨1, [Base.A]⟩ [65, 67, 71, 84] ∧
    convert_dense ⟨2, [Base.A]⟩ ⟨1, [Base.A]⟩
        (find_dense ⟨2, [Base.A]⟩ [65, 67, 71, 84]) =
      find_dense ⟨1, [Base.A]⟩ [65, 67, 71, 84] :=
  ⟨(convert_matches_rescan ⟨2, [Base.A]⟩ ⟨1, [Base.A]⟩ (by decide) [65, 67, 71, 84]).1,
    (convert_matches_rescan ⟨2, [Base.A]⟩ ⟨1, [Base.A]⟩ (by decide) [65, 67, 71, 84]).2
      (by decide)⟩

/-- Counterexample to C1 as stated: `S = KmerSpec(2, "A")` and
`T = KmerSpec(1, "A")` are compatible, but over the sequence `"AC"` the
`T`-scan finds the k-mer `C` (the prefix occurrence at position 0 is
followed by one valid nucleotide) while the `S`-scan finds nothing (its
2-wide k-mer body would run past the end), so converting `S`'s signature
yields the empty signature, not the `T`-rescan. -/
theorem convert_not_always_rescan :
    can_convert ⟨2, [Base.A]⟩ ⟨1, [Base.A]⟩ = true ∧
    convert_sparse ⟨2, [Base.A]⟩ ⟨1, [Base.A]⟩ (find_kmers ⟨2, [Base.A]⟩ [65, 67]) ≠
      find_kmers ⟨1, [Base.A]⟩ [65, 67] ∧
    convert_dense ⟨2, [Base.A]⟩ ⟨1, [Base.A]⟩ (find_dense ⟨2, [Base.A]⟩ [65, 67]) ≠
      find_dense ⟨1, [Base.A]⟩ [65, 67] := by
  decide

/-- **C2**: for every KmerSpec and every byte sequence, scanning yields the
same signature (sparse and dense) as scanning the full reverse complement,
and the same signature as scanning the lower-cased sequence; more generally
any sequence whose bytes classify to the same nucleotides (any mixed-case
version) scans to the same signature. -/
theorem find_kmers_strand_symmetric_case_insensitive (sp : KmerSpec) (s : List Nat) :
    (find_kmers sp s = find_kmers sp (rcSeq s) ∧
      find_dense sp s = find_dense sp (rcSeq s)) ∧
    (find_kmers sp s = find_kmers sp (s.map lowerByte) ∧
      find_dense sp s = find_dense sp (s.map lowerByte)) ∧
    (∀ t, t.map baseOf = s.map baseOf → find_kmers sp t = find_kmers sp s) := by
  have hrc : ∀ i, i ∈ findKmerList sp s ↔ i ∈ findKmerList sp (rcSeq s) :=
    fun i => (mem_findKmerList_rcSeq).symm
  have hlc : findKmerList sp (s.map lowerByte) = findKmerList sp s :=
    findKmerList_congr (map_baseOf_lowerByte s)
  refine ⟨⟨find_kmers_eq_of_mem_iff hrc, find_dense_eq_of_mem_iff hrc⟩,
    ⟨?_, ?_⟩, fun t ht => ?_⟩
  · exact (find_kmers_eq_of_mem_iff fun i => by rw [hlc]).symm.symm
  · exact (find_dense_eq_of_mem_iff fun i => by rw [hlc])
  · unfold find_kmers
    rw [findKmerList_congr ht]

/-- **C3**: `can_convert(S, T)` is true iff `T`'s (canonicalized) prefix
starts with `S`'s and `T.prefix_len + T.k ≤ S.prefix_len + S.k`; it is a
total boolean function; and `check_can_convert` returns normally exactly
when `can_convert` is true, raising a descriptive error exactly when it is
false. -/
theorem can_convert_iff_and_check_raises (S T : KmerSpec) :
    (can_convert S T = true ↔
      (∃ r, T.prefx = S.prefx ++ r) ∧ T.prefx_len + T.k ≤ S.prefx_len + S.k) ∧
    (check_can_convert S T = Except.ok () ↔ can_convert S T = true) ∧
    ((∃ msg, check_can_convert S T = Except.error msg) ↔ can_convert S T = false) := by
  refine ⟨?_, ?_, ?_⟩
  · rw [can_convert, Bool.and_eq_true, decide_eq_true_eq, isPre_iff]
  · rw [can_convert, check_can_convert]
    split_ifs with h1 h2 h3 <;> simp [h1, *]
  · rw [can_convert, check_can_convert]
    split_ifs with h1 h2 h3 <;> simp [h1, *]

/-- **C4**: for every `k ≤ 32` and every length-`k` byte string over the
nucleotide alphabet in either case, `index_to_kmer (kmer_to_index s) k` is
the upper-cased string; and `kmer_to_index` fails (returns no index at all)
whenever any byte is not a valid nucleotide. -/
theorem index_conversion_round_trip (k : Nat) (hk : k ≤ 32) (s : List Nat)
    (hlen : s.length = k) :
    ((∀ c ∈ s, (baseOf c).isSome) →
      (kmer_to_index s).map (fun i => index_to_kmer i k) = some (s.map upperByte)) ∧
    ((∃ c ∈ s, baseOf c = none) → kmer_to_index s = none) := by
  constructor
  · intro hvalid
    obtain ⟨bs, hbs⟩ := decodeSeq_of_all_valid hvalid
    have hbslen : bs.length = k := by
      rw [decodeSeq_length hbs, hlen]
    rw [kmer_to_index, hbs, Option.map_some', Option.map_some', index_to_kmer,
      ← hbslen, decodeKmer_kmerIndex, map_baseChar_eq_upper (decodeSeq_eq_some.mp hbs)]
  · rintro ⟨c, hc, hnone⟩
    rcases hbs : decodeSeq s with _ | bs
    · rw [kmer_to_index, hbs]
      rfl
    · have := decodeSeq_valid_of_some hbs c hc
      rw [hnone] at this
      exact absurd this (by simp)

/-- Witness for C4 at `k = 3`, `s = "AtG"` (valid, mixed case) and
`s = "ATX"` (invalid byte 88). -/
theorem index_conversion_round_trip_witness :
    (kmer_to_index [65, 116, 71]).map (fun i => index_to_kmer i 3) =
      some [65, 84, 71] ∧
    kmer_to_index [65, 84, 88] = none := by
  constructor
  · exact (index_conversion_round_trip 3 (by decide) [65, 116, 71] (by decide)).1
      (by decide)
  · exact (index_conversion_round_trip 3 (by decide) [65, 84, 88] (by decide)).2
      ⟨88, by decide, by decide⟩

/-- **C5**: for every KmerSpec, `dense_to_sparse ∘ sparse_to_dense` is the
sorted deduplication of any in-range index list, and
`sparse_to_dense ∘ dense_to_sparse` is the identity on length-`nkmers`
boolean vectors. -/
theorem dense_sparse_round_trip (sp : KmerSpec) (idx : List Nat) (vec : List Bool)
    (hidx : ∀ i ∈ idx, i < sp.nkmers) (hvec : vec.length = sp.nkmers) :
    dense_to_sparse (sparse_to_dense sp idx) = sortedUnique idx ∧
    sparse_to_dense sp (dense_to_sparse vec) = vec := by
  constructor
  · refine sorted_lt_eq_of_mem_iff (sorted_dense_to_sparse _) (sorted_sortedUnique _) ?_
    intro a
    rw [mem_dense_to_sparse, mem_sortedUnique]
    unfold sparse_to_dense
    simp only [List.length_map, List.length_range]
    constructor
    · rintro ⟨ha, hget⟩
      rw [getD_map_range _ _ ha] at hget
      exact of_decide_eq_true hget
    · intro ha
      exact ⟨hidx a ha, by rw [getD_map_range _ _ (hidx a ha)]; exact decide_eq_true ha⟩
  · refine List.ext_getElem (by simp [sparse_to_dense, hvec]) ?_
    intro i h₁ h₂
    unfold sparse_to_dense
    have hi : i < sp.nkmers := by simpa [sparse_to_dense] using h₁
    rw [List.getElem_map, List.getElem_range]
    have hiff : (i ∈ dense_to_sparse vec) ↔ vec[i] = true := by
      rw [mem_dense_to_sparse, List.getD_eq_getElem _ _ h₂]
      constructor
      · exact And.right
      · intro hv
        exact ⟨h₂, hv⟩
    rcases hv : vec[i] with _ | _
    · simp [hiff, hv]
    · simp [hiff, hv]

/-- Witness for C5 at `KmerSpec(1, "A")`, `idx = [2, 0, 2]`,
`vec = [true, false, true, false]`. -/
theorem dense_sparse_round_trip_witness :
    dense_to_sparse (sparse_to_dense ⟨1, [Base.A]⟩ [2, 0, 2]) = sortedUnique [2, 0, 2] ∧
    sparse_to_dense ⟨1, [Base.A]⟩ (dense_to_sparse [true, false, true, false]) =
      [true, false, true, false] :=
  dense_sparse_round_trip ⟨1, [Base.A]⟩ [2, 0, 2] [true, false, true, false]
    (by decide) (by decide)

/-- **C10**: `kspec_from_params` returns `None` when both parameters are
absent, raises a `ClickException` when exactly one is absent, and when both
are given returns exactly what the `KmerSpec` constructor produces (its
`ValueError` included) — never a spec built from partial parameters. -/
theorem kspec_from_params_dispatch :
    kspec_from_params none none = Except.ok none ∧
    (∀ kv, kspec_from_params (some kv) none =
      Except.error (CliError.click "Must specify values for both -k and --prefix arguments.")) ∧
    (∀ pv, kspec_from_params none (some pv) =
      Except.error (CliError.click "Must specify values for both -k and --prefix arguments.")) ∧
    (∀ kv pv sp, kspec_from_params (some kv) (some pv) = Except.ok (some sp) ↔
      mkKmerSpec kv pv = Except.ok sp) ∧
    (∀ kv pv e, kspec_from_params (some kv) (some pv) = Except.error (CliError.valueError e) ↔
      mkKmerSpec kv pv = Except.error e) ∧
    (∀ kv pv, kspec_from_params (some kv) (some pv) ≠ Except.ok none) := by
  refine ⟨rfl, fun kv => rfl, fun pv => rfl, fun kv pv sp => ?_, fun kv pv e => ?_,
    fun kv pv => ?_⟩ <;>
    rcases hmk : mkKmerSpec kv pv with e' | sp' <;> simp [kspec_from_params, hmk]

/-- **C6**: for every KmerSpec and fixed list of sources, the calculation
pipeline produces the same signatures in original source order under all
three concurrency modes, whatever order the pool's workers complete in
(any permutation of the unit indices). -/
theorem calc_file_signatures_mode_independent (sp : KmerSpec)
    (sources : List (List (List Nat))) (mode : Concurrency) (completion : List Nat)
    (hperm : List.Perm completion (List.range sources.length)) :
    calc_file_signatures sp sources mode completion =
      calc_file_signatures_serial sp sources := by
  have hpool : calc_file_signatures_pool sp sources completion =
      calc_file_signatures_serial sp sources := by
    unfold calc_file_signatures_pool calc_file_signatures_serial
    refine List.ext_getElem (by simp) ?_
    intro i h₁ h₂
    have hslen : i < sources.length := by simpa using h₂
    have hi : i ∈ completion := hperm.mem_iff.mpr (List.mem_range.mpr hslen)
    simp only [List.getElem_map, List.getElem_range]
    rw [find?_map_tag _ _ _ hi, Option.map_some', Option.getD_some,
      List.getD_eq_getElem _ _ hslen]
  cases mode with
  | sequential => rfl
  | threads => exact hpool
  | processes => exact hpool

/-- Witness for C6 at a concrete two-source input with reversed completion
order, in process-pool mode. -/
theorem calc_file_signatures_mode_independent_witness :
    calc_file_signatures ⟨1, [Base.A]⟩ [[[65, 67]], [[71, 65, 84]]]
        Concurrency.processes [1, 0] =
      calc_file_signatures_serial ⟨1, [Base.A]⟩ [[[65, 67]], [[71, 65, 84]]] :=
  calc_file_signatures_mode_independent ⟨1, [Base.A]⟩ [[[65, 67]], [[71, 65, 84]]]
    Concurrency.processes [1, 0] (by decide)

/-- **C7** (amended): bulk construction, uninitialized construction and
integer-array indexing always produce arrays satisfying the bounds
invariant; a contiguous slice of an invariant-satisfying array satisfies it;
and `from_arrays` satisfies it whenever the caller's pair does (it performs
no validation of its own). -/
theorem sigarray_invariant_all_constructors :
    (∀ sigs, (SigArray.init sigs).inv) ∧
    (∀ lengths, (SigArray.uninit lengths).inv) ∧
    (∀ v b, b ≠ [] ∧ b.headD 0 = 0 ∧ b.getLastD 0 = v.length ∧ nondecr b = true →
      (SigArray.from_arrays v b).inv) ∧
    (∀ (a : SigArray) (idxs : List Nat), a.inv → (∀ i ∈ idxs, i < a.len) →
      (a.getIntArray idxs).inv) ∧
    (∀ (a : SigArray) (start stop : Nat), a.inv → stop ≤ a.len →
      (a.getSlice start stop).inv) :=
  ⟨init_inv, uninit_inv, fun _ _ h => inv_mk h.1 h.2.1 h.2.2.1 h.2.2.2,
    fun _ _ h hi => getIntArray_inv h hi, fun _ _ _ h hs => getSlice_inv h hs⟩

/-- Counterexample to C7 as stated: `from_arrays` performs no validation, so
it also produces arrays violating the bounds invariant — here a bounds
buffer whose first entry is 1, not 0. -/
theorem from_arrays_breaks_invariant :
    ¬ (SigArray.from_arrays [] [1]).inv := by decide

/-- **C8**: a unit-step contiguous slice `a[start:stop]` of an
invariant-satisfying array has exactly the parent's values subrange
`values[bounds[start]:bounds[stop]]` as its values buffer (the shared view,
stated extensionally), its bounds are `bounds[start:stop+1]` shifted to
start at zero, its length is `stop - start`, and element `i` equals
`a[start + i]`. -/
theorem getSlice_spec (a : SigArray) (start stop : Nat) (h : a.inv)
    (hss : start ≤ stop) (hstop : stop ≤ a.len) :
    (a.getSlice start stop).values =
      listSlice a.values (a.bounds.getD start 0) (a.bounds.getD stop 0) ∧
    (a.getSlice start stop).bounds =
      (listSlice a.bounds start (stop + 1)).map (fun x => x - a.bounds.getD start 0) ∧
    (a.getSlice start stop).len = stop - start ∧
    (∀ i, i < stop - start → (a.getSlice start stop).getSig i = a.getSig (start + i)) := by
  have hblen : a.bounds.length = a.len + 1 := by
    unfold SigArray.len
    have := List.length_pos.mpr h.1
    omega
  rcases Nat.eq_or_lt_of_le hss with rfl | hlt
  · have h1 : a.getSlice start start = SigArray.from_arrays [] [0] := by
      unfold SigArray.getSlice
      rw [if_pos (Nat.le_refl start), Nat.sub_self]
      rfl
    have hsl : listSlice a.bounds start (start + 1) = [a.bounds.getD start 0] := by
      apply List.ext_getElem
      · rw [listSlice_length]
        simp only [List.length_singleton]
        omega
      · intro t h₁ h₂
        have ht : t = 0 := by
          simp only [List.length_singleton] at h₂
          omega
        subst ht
        have hL : (listSlice a.bounds start (start + 1)).getD 0 0 =
            a.bounds.getD start 0 := by
          rw [listSlice_getD (by omega), Nat.add_zero]
        rw [List.getD_eq_getElem _ _ h₁] at hL
        rw [hL, List.getElem_singleton]
    refine ⟨?_, ?_, ?_, fun i hi => absurd hi (by omega)⟩
    · rw [h1]
      show ([] : List Nat) = listSlice a.values (a.bounds.getD start 0) (a.bounds.getD start 0)
      unfold listSlice
      rw [Nat.sub_self, List.take_zero]
    · rw [h1, hsl]
      show ([0] : List Nat) = [a.bounds.getD start 0 - a.bounds.getD start 0]
      rw [Nat.sub_self]
    · rw [h1, from_arrays_len]
      simp
  · have hslice : a.getSlice start stop = SigArray.from_arrays
        (listSlice a.values (a.bounds.getD start 0) (a.bounds.getD stop 0))
        ((listSlice a.bounds start (stop + 1)).map fun x => x - a.bounds.getD start 0) := by
      unfold SigArray.getSlice
      rw [if_neg (by omega)]
    refine ⟨by rw [hslice]; rfl, by rw [hslice]; rfl, ?_,
      fun i hi => getSig_getSlice h hlt hstop hi⟩
    rw [hslice, from_arrays_len, List.length_map, listSlice_length]
    omega

/-- Witness for C8 at the three-signature array `[[5], [7, 8], [9]]` sliced
as `a[1:3]`. -/
theorem getSlice_spec_witness :
    ((SigArray.init [[5], [7, 8], [9]]).getSlice 1 3).values =
      listSlice (SigArray.init [[5], [7, 8], [9]]).values
        ((SigArray.init [[5], [7, 8], [9]]).bounds.getD 1 0)
        ((SigArray.init [[5], [7, 8], [9]]).bounds.getD 3 0) ∧
    ((SigArray.init [[5], [7, 8], [9]]).getSlice 1 3).bounds =
      (listSlice (SigArray.init [[5], [7, 8], [9]]).bounds 1 4).map
        (fun x => x - (SigArray.init [[5], [7, 8], [9]]).bounds.getD 1 0) ∧
    ((SigArray.init [[5], [7, 8], [9]]).getSlice 1 3).len = 3 - 1 ∧
    (∀ i, i < 3 - 1 → ((SigArray.init [[5], [7, 8], [9]]).getSlice 1 3).getSig i =
      (SigArray.init [[5], [7, 8], [9]]).getSig (1 + i)) :=
  getSlice_spec (SigArray.init [[5], [7, 8], [9]]) 1 3 (by decide) (by decide) (by decide)

/-- **C9**: `sizeof(i)` is `bounds[i+1] - bounds[i]` and equals the length
of element `i` (under the bounds invariant, for in-range `i`);
`ConcatenatedSignatureArray.sizes` is the vector of all `sizeof` values in
one pass over `bounds` (`np.diff`); but the derived default implementation
`AbstractSignatureArray.sizes` cannot return it: its `np.fromiter` call
lacks the required `dtype` argument and raises `TypeError` on every call
(modelled as `none`). -/
theorem sizeof_sizes_spec :
    (∀ a : SigArray, ∀ i, a.inv → i < a.len →
      a.sizeof i = a.bounds.getD (i + 1) 0 - a.bounds.getD i 0 ∧
      a.sizeof i = (a.getSig i).length) ∧
    (∀ a : SigArray, a.sizes = (List.range a.len).map fun i => a.sizeof i) ∧
    (∀ a : SigArray, abstractSizesDefault a = none) :=
  ⟨fun _ _ h hi => ⟨rfl, (getSig_length h hi).symm⟩, fun _ => rfl, fun _ => rfl⟩

end Gambit

section Smoke

open Gambit

example : kmer_to_index [65, 84, 71] = some 14 := by decide

example : index_to_kmer 14 3 = [65, 84, 71] := by decide

example : rcSeq [65, 84, 71, 99] = [103, 67, 65, 84] := by decide

example :
    find_kmers ⟨2, [Base.A]⟩ [65, 67, 71] = [6] := by decide

example :
    find_kmers ⟨1, [Base.A]⟩ [65, 67] = [1] := by decide

example :
    find_kmers ⟨2, [Base.A]⟩ [65, 67] = [] := by decide

/- The overlapping forward/reverse matches of `TestFindKmers.test_overlapping`
(`KmerSpec(11, "GCCGG")` over a hand-built 54-byte sequence): exactly the five
expected k-mer indices. -/
example :
    find_kmers ⟨11, [Base.G, Base.C, Base.C, Base.G, Base.G]⟩
      [65, 84, 65, 84, 71, 67, 67, 71, 71, 67, 67, 71, 71, 65, 84, 84, 65, 84, 65, 84, 65,
        71, 67, 67, 71, 71, 67, 65, 84, 84, 65, 67, 65, 84, 67, 67, 71, 65, 84, 65, 71, 71,
        65, 84, 67, 67, 71, 71, 67, 65, 65, 84, 65, 65] =
      [881512, 996133, 1295574, 1478451, 1887285] := by decide

/- The compatibility vectors of `TestKmerSpecConversion.test_can_convert`
(source spec `KmerSpec(11, "ATGAC")`). -/
example :
    (Gambit.can_convert ⟨11, [Base.A, Base.T, Base.G, Base.A, Base.C]⟩
        ⟨11, [Base.A, Base.T, Base.G, Base.A, Base.C]⟩ = true) ∧
    (Gambit.can_convert ⟨11, [Base.A, Base.T, Base.G, Base.A, Base.C]⟩
        ⟨8, [Base.A, Base.T, Base.G, Base.A, Base.C]⟩ = true) ∧
    (Gambit.can_convert ⟨11, [Base.A, Base.T, Base.G, Base.A, Base.C]⟩
        ⟨10, [Base.A, Base.T, Base.G, Base.A, Base.C, Base.A]⟩ = true) ∧
    (Gambit.can_convert ⟨11, [Base.A, Base.T, Base.G, Base.A, Base.C]⟩
        ⟨8, [Base.A, Base.T, Base.G, Base.A, Base.C, Base.A]⟩ = true) ∧
    (Gambit.can_convert ⟨11, [Base.A, Base.T, Base.G, Base.A, Base.C]⟩
        ⟨11, [Base.C, Base.A, Base.G, Base.T, Base.A]⟩ = false) ∧
    (Gambit.can_convert ⟨11, [Base.A, Base.T, Base.G, Base.A, Base.C]⟩
        ⟨12, [Base.A, Base.T, Base.G, Base.A, Base.C]⟩ = false) ∧
    (Gambit.can_convert ⟨11, [Base.A, Base.T, Base.G, Base.A, Base.C]⟩
        ⟨11, [Base.A, Base.T, Base.G, Base.A]⟩ = false) ∧
    (Gambit.can_convert ⟨11, [Base.A, Base.T, Base.G, Base.A, Base.C]⟩
        ⟨11, [Base.A, Base.T, Base.G, Base.A, Base.C, Base.T]⟩ = false) := by
  decide

end Smoke
